import Mathlib

/-!
Verification development for the hashtree desktop runtime.

The Rust sources under the iris-files src-tauri crate are embedded shallowly:
pure functions become Lean functions, stateful store operations become
explicit state passing, fallible operations return Except, and machine
integers become Nat.  External crates (hashtree-fs, hashtree-blossom,
hashtree-core, nostr-sdk, heed) that the embedded code calls into are
modelled as idealized maps, flags or function parameters, as documented at
each definition.
-/

/-- Raw blob bytes, modelled as a list of byte values. -/
abbrev Bytes := List Nat

/-- Modelled from the spec: the local on-disk blob store (FsBlobStore of the
hashtree-fs crate, spec section 4.1 LocalBlobStore), idealized as a
hash-to-bytes map plus a flag that makes writes fail, modelling disk I/O
errors which the spec says surface as fails.  Pinning, eviction and access
metadata play no role in the claims and are omitted. -/
structure FsBlobStore where
  data : List (Nat × Bytes)
  failPut : Bool
deriving DecidableEq

/-- Lookup of a blob in the local store. -/
def FsBlobStore.get (s : FsBlobStore) (h : Nat) : Option Bytes :=
  s.data.lookup h

/-- Write of a blob into the local store; fails when the disk-failure flag is
set, otherwise returns true exactly when the hash is newly inserted. -/
def FsBlobStore.put (s : FsBlobStore) (h : Nat) (b : Bytes) :
    Except String Bool × FsBlobStore :=
  if s.failPut then (Except.error ("io error"), s)
  else
    match s.data.lookup h with
    | some _ => (Except.ok false, s)
    | none => (Except.ok true, { s with data := (h, b) :: s.data })

/-- Deletion of a blob from the local store. -/
def FsBlobStore.delete (s : FsBlobStore) (h : Nat) :
    Except String Bool × FsBlobStore :=
  match s.data.lookup h with
  | some _ => (Except.ok true, { s with data := s.data.filter (fun p => !(p.1 == h)) })
  | none => (Except.ok false, s)

/-- The combined store of worker/combined_store.rs and htree.rs: a local
FsBlobStore in front of Blossom.  The Blossom side is modelled from the spec
(section 4.2 BlossomClient): a read-only hash-to-bytes map for the remote
contents plus a network-error flag; a get on the remote returns the mapped
bytes, none when no server has the blob, and an error when the flag is set. -/
structure CombinedStore where
  localStore : FsBlobStore
  blossom : List (Nat × Bytes)
  blossomErr : Bool
deriving DecidableEq

/-- Embedding of the get of impl Store for CombinedStore: try the local store
first; on a local miss fall back to Blossom, and on a Blossom hit write the
bytes through into the local store best-effort, ignoring the outcome of that
cache fill. -/
def CombinedStore.get (s : CombinedStore) (h : Nat) :
    Except String (Option Bytes) × CombinedStore :=
  match s.localStore.get h with
  | some data => (Except.ok (some data), s)
  | none =>
    if s.blossomErr then (Except.error ("blossom fetch error"), s)
    else
      match s.blossom.lookup h with
      | some data =>
        let cached := s.localStore.put h data
        (Except.ok (some data), { s with localStore := cached.2 })
      | none => (Except.ok none, s)

/-- Embedding of the put of impl Store for CombinedStore: writes only to the
local store. -/
def CombinedStore.put (s : CombinedStore) (h : Nat) (b : Bytes) :
    Except String Bool × CombinedStore :=
  let r := s.localStore.put h b
  (r.1, { s with localStore := r.2 })

/-- Embedding of the delete of impl Store for CombinedStore: deletes only
from the local store. -/
def CombinedStore.delete (s : CombinedStore) (h : Nat) :
    Except String Bool × CombinedStore :=
  let r := s.localStore.delete h
  (r.1, { s with localStore := r.2 })

/-- Char-list rendering of Rust str::starts_with: the first list starts with
the second.  The core String functions do not reduce inside the kernel, so
the embedding works on the underlying character lists throughout. -/
def listStartsWith : List Char → List Char → Bool
  | _, [] => true
  | [], _ :: _ => false
  | c :: cs, d :: ds => c == d && listStartsWith cs ds

/-- Char-list rendering of Rust str::ends_with. -/
def listEndsWith (hay suf : List Char) : Bool :=
  listStartsWith hay.reverse suf.reverse

/-- Char-list rendering of Rust str::contains for a string pattern. -/
def listContainsSeq : List Char → List Char → Bool
  | hay, needle =>
    if listStartsWith hay needle then true
    else
      match hay with
      | [] => false
      | _ :: t => listContainsSeq t needle

/-- Char-list rendering of Rust str::split with a predicate separator:
separators are not kept, and empty pieces are produced between adjacent
separators and at the ends, exactly as in Rust. -/
def splitBy (p : Char → Bool) : List Char → List (List Char)
  | [] => [[]]
  | c :: cs =>
    if p c then [] :: splitBy p cs
    else
      match splitBy p cs with
      | [] => [[c]]
      | w :: rest => (c :: w) :: rest

/-- Char-list rendering of Rust str::to_lowercase (ASCII; the claims only
exercise ASCII data). -/
def listToLower (l : List Char) : List Char :=
  l.map Char.toLower

/-- Byte-lexicographic string order of Rust str::cmp, as a Boolean
less-or-equal on character lists. -/
def charsLe : List Char → List Char → Bool
  | [], _ => true
  | _ :: _, [] => false
  | c :: cs, d :: ds => if c == d then charsLe cs ds else decide (c < d)

/-- Stable insertion into a sorted list: the new element is placed after
every element strictly below it, hence before equal elements that arrived
later in the original list. -/
def insertByLe {α : Type} (le : α → α → Bool) (a : α) : List α → List α
  | [] => [a]
  | b :: bs =>
    if le b a && !(le a b) then b :: insertByLe le a bs
    else a :: b :: bs

/-- Stable insertion sort by a Boolean less-or-equal, modelling the stable
sorts of Rust slice::sort_by and slice::sort_by_key.  Structural recursion
keeps it reducible inside the kernel, unlike the library merge sort. -/
def sortByLe {α : Type} (le : α → α → Bool) : List α → List α
  | [] => []
  | a :: as => insertByLe le a (sortByLe le as)

/-- Digit-sequence parse of a natural number, the core of Rust usize
parsing. -/
def charsToNat? (l : List Char) : Option Nat :=
  if l.isEmpty then none
  else if l.all (fun c => c.isDigit) then
    some (l.foldl (fun acc c => acc * 10 + (c.toNat - 48)) 0)
  else none

/-- Rust usize parsing as invoked by the range parser: an optional leading
plus sign followed by at least one digit.  Overflow is not modelled. -/
def parse_usize (s : List Char) : Option Nat :=
  match s with
  | '+' :: rest => charsToNat? rest
  | _ => charsToNat? s

/-- Start position of a requested range: a suffix form (empty first part)
takes the last suffixLen bytes via a saturating subtraction, otherwise the
first part is parsed as the start. -/
def rangeStart (totalSize : Nat) (p0 p1 : List Char) : Option Nat :=
  if p0.isEmpty then
    match parse_usize p1 with
    | some suffixLen => some (totalSize - suffixLen)
    | none => none
  else parse_usize p0

/-- End position of a requested range: an open-ended form (empty second
part) runs to the last byte, otherwise the second part is parsed as the
end. -/
def rangeStop (totalSize : Nat) (p1 : List Char) : Option Nat :=
  if p1.isEmpty then some (totalSize - 1) else parse_usize p1

/-- Embedding of parse_range_header from htree.rs: parses a Range header
value against the total size, returning the selected inclusive byte range or
none when the header is invalid for that size.  The Rust code strips the
leading bytes= marker and splits the remainder on the dash character. -/
def parse_range_header (rangeHeader : String) (totalSize : Nat) :
    Option (Nat × Nat) :=
  if totalSize = 0 then none
  else if listStartsWith rangeHeader.data ("bytes=".data) then
    match splitBy (fun c => c == '-') (rangeHeader.data.drop 6) with
    | [p0, p1] =>
      match rangeStart totalSize p0 p1 with
      | none => none
      | some start =>
        match rangeStop totalSize p1 with
        | none => none
        | some stop =>
          if start > stop ∨ start ≥ totalSize then none
          else some (start, min stop (totalSize - 1))
    | _ => none
  else none

/-- Content identifier: a hash together with an optional CHK decryption
key. -/
structure Cid where
  hash : Nat
  key : Option Nat
deriving DecidableEq

/-- Decidable equality for Except values, used to evaluate the embedded
fallible operations at concrete inputs. -/
instance instDecEqExcept {α β : Type} [DecidableEq α] [DecidableEq β] :
    DecidableEq (Except α β) := fun a b => by
  cases a with
  | error x =>
    cases b with
    | error y =>
      exact if h : x = y then isTrue (by rw [h])
        else isFalse (fun hh => h (by injection hh))
    | ok y => exact isFalse (fun hh => Except.noConfusion hh)
  | ok x =>
    cases b with
    | error y => exact isFalse (fun hh => Except.noConfusion hh)
    | ok y =>
      exact if h : x = y then isTrue (by rw [h])
        else isFalse (fun hh => h (by injection hh))

/-- Tree visibility as in htree.rs (matches the TypeScript TreeVisibility). -/
inductive TreeVisibility
  | publicVis
  | linkVisible
  | privateVis
deriving DecidableEq

/-- Cached tree root entry of the root cache in htree.rs.  The Rust struct
also carries an Instant timestamp that no code path reads (it is marked dead
code); real time is not modelled. -/
structure CachedRoot where
  cid : Cid
  visibility : TreeVisibility
deriving DecidableEq

/-- LRU cache of tree roots, most recently used first.  This models the lru
crate cache used by HtreeState: peek looks a key up without touching the
recency order. -/
def lru_peek (cache : List (String × CachedRoot)) (k : String) :
    Option CachedRoot :=
  cache.lookup k

/-- LRU put: insert at the front as most recently used, displacing any older
entry for the same key and truncating to the capacity. -/
def lru_put (cap : Nat) (cache : List (String × CachedRoot)) (k : String)
    (v : CachedRoot) : List (String × CachedRoot) :=
  ((k, v) :: cache.filter (fun p => !(p.1 == k))).take cap

/-- Outcome of one resolve_tree call: the result, the root cache after the
call, and whether Nostr was queried. -/
structure ResolveOutcome where
  result : Except String Cid
  cache : List (String × CachedRoot)
  queriedNostr : Bool
deriving DecidableEq

/-- Nostr half of resolve_tree in htree.rs: run the relay query (modelled by
its outcome: an error covers resolver failures and the 10 second timeout),
turn an empty result into a TreeNotFound error, and cache a successful
result with Public visibility. -/
def resolve_tree_nostr (cache : List (String × CachedRoot)) (cacheKey : String)
    (nostr : Except String (Option Cid)) : ResolveOutcome :=
  match nostr with
  | Except.error e => ⟨Except.error e, cache, true⟩
  | Except.ok none => ⟨Except.error ("Tree not found: " ++ cacheKey), cache, true⟩
  | Except.ok (some cid) =>
    ⟨Except.ok cid, lru_put 1000 cache cacheKey ⟨cid, TreeVisibility.publicVis⟩, true⟩

/-- Embedding of HtreeState::resolve_tree from htree.rs.  Parameters stand
for the store and the codec: storeGet h is the combined store get, with some
bytes for an Ok-Some outcome and none otherwise; isTreeNode is
hashtree_core::is_tree_node on the raw block bytes; nostr is the outcome of
the relay resolution.  The cache is probed with peek; a cached entry is
served when its CID carries a key, or when its root block is retrievable and
confirmed to be a tree node; otherwise resolution falls through to Nostr. -/
def resolve_tree (cache : List (String × CachedRoot))
    (storeGet : Nat → Option Bytes) (isTreeNode : Bytes → Bool)
    (nostr : Except String (Option Cid)) (npub treeName : String) :
    ResolveOutcome :=
  match lru_peek cache (npub ++ "/" ++ treeName) with
  | some entry =>
    if entry.cid.key.isSome then ⟨Except.ok entry.cid, cache, false⟩
    else
      match storeGet entry.cid.hash with
      | some data =>
        if isTreeNode data then ⟨Except.ok entry.cid, cache, false⟩
        else resolve_tree_nostr cache (npub ++ "/" ++ treeName) nostr
      | none => resolve_tree_nostr cache (npub ++ "/" ++ treeName) nostr
  | none => resolve_tree_nostr cache (npub ++ "/" ++ treeName) nostr

/-- Inclusive byte-range slice as written in Rust as data from start to
stop plus one. -/
def sliceRange (data : Bytes) (start stop : Nat) : Bytes :=
  (data.drop start).take (stop + 1 - start)

/-- Embedding of read_range_or_full from htree.rs.  The parameters stand for
the store-backed async calls on the state: readFile is state.read_file on the
file CID (full fetch, CHK-decrypted when the CID has a key), fileSize is
state.get_file_size, and readFileRange s e is state.read_file_range with
inclusive start s and exclusive end e. -/
def read_range_or_full (readFile : Except String Bytes)
    (fileSize : Except String Nat)
    (readFileRange : Nat → Nat → Except String Bytes) (fileCid : Cid)
    (rangeHeader : Option String) :
    Except String (Bytes × Option (Nat × Nat × Nat)) :=
  match rangeHeader with
  | some rangeStr =>
    if fileCid.key.isSome then
      match readFile with
      | Except.error e => Except.error e
      | Except.ok data =>
        let totalSize := data.length
        match parse_range_header rangeStr totalSize with
        | some (start, stop) =>
          Except.ok (sliceRange data start stop, some (start, stop, totalSize))
        | none => Except.ok (data, none)
    else
      match fileSize with
      | Except.error e => Except.error e
      | Except.ok totalSize =>
        match parse_range_header rangeStr totalSize with
        | some (start, stop) =>
          match readFileRange start (stop + 1) with
          | Except.error e => Except.error e
          | Except.ok data => Except.ok (data, some (start, stop, totalSize))
        | none =>
          match readFile with
          | Except.error e => Except.error e
          | Except.ok data => Except.ok (data, none)
  | none =>
    match readFile with
    | Except.error e => Except.error e
    | Except.ok data => Except.ok (data, none)

/-- HTTP response produced by the htree gateway for a content request. -/
structure HtreeResponse where
  status : Nat
  contentType : String
  contentLength : Nat
  contentRange : Option String
  acceptRanges : Bool
  body : Bytes
deriving DecidableEq

/-- Response construction of handle_htree_request in htree.rs: a range-info
result becomes a 206 partial response with a Content-Range header, otherwise
a plain 200 full response. -/
def build_htree_response (contentType : String) (data : Bytes)
    (rangeInfo : Option (Nat × Nat × Nat)) : HtreeResponse :=
  match rangeInfo with
  | some (start, stop, totalSize) =>
    { status := 206
      contentType := contentType
      contentLength := data.length
      contentRange := some ("bytes " ++ toString start ++ "-" ++ toString stop
        ++ "/" ++ toString totalSize)
      acceptRanges := true
      body := data }
  | none =>
    { status := 200
      contentType := contentType
      contentLength := data.length
      contentRange := none
      acceptRanges := true
      body := data }

/-- Tail of handle_htree_request from htree.rs, after path resolution: read
the requested bytes and build the response. -/
def handle_htree_request (readFile : Except String Bytes)
    (fileSize : Except String Nat)
    (readFileRange : Nat → Nat → Except String Bytes) (fileCid : Cid)
    (contentType : String) (rangeHeader : Option String) :
    Except String HtreeResponse :=
  match read_range_or_full readFile fileSize readFileRange fileCid rangeHeader with
  | Except.error e => Except.error e
  | Except.ok (data, rangeInfo) => Except.ok (build_htree_response contentType data rangeInfo)

/-- Permission types of permissions.rs. -/
inductive PermissionType
  | getPublicKey
  | signEvent
  | encryptCap
  | decryptCap
  | readEvents (kinds : Option (List Nat))
  | publishEvent (kinds : Option (List Nat))
deriving DecidableEq

/-- Permission store of permissions.rs: per-origin capability decisions,
origin to a map from permission type to granted flag. -/
abbrev PermissionCache := List (String × List (PermissionType × Bool))

/-- Embedding of PermissionStore::is_granted: GetPublicKey is always
allowed; otherwise the stored decision for this origin and capability, if
any. -/
def is_granted (cache : PermissionCache) (appOrigin : String)
    (pt : PermissionType) : Option Bool :=
  if pt = PermissionType.getPublicKey then some true
  else
    match cache.lookup appOrigin with
    | some perms => perms.lookup pt
    | none => none

/-- NIP-07 JSON response: at most one of result and error is set.  The
serde Value result is modelled as its JSON text. -/
structure Nip07Response where
  result : Option String
  error : Option String
deriving DecidableEq

/-- Event template carried in the params of a signEvent request. -/
structure SignEventParams where
  kind : Option Nat
  content : String
  createdAt : Option Nat
  tags : List (List String)
deriving DecidableEq

/-- Params object of a NIP-07 request; only the event field is inspected by
the handler. -/
structure Nip07Params where
  event : Option SignEventParams
deriving DecidableEq

/-- Embedding of handle_nip07_request from nip07.rs.  Parameters stand for
the worker state and the crypto: pubkey is nostr.get_pubkey, keys is
nostr.get_keys (the signing key material, rendered opaquely as a string),
and signEventFn keys ev is the construction plus signing plus serialization
of the unsigned event, whose success yields the signed event JSON.  The
returned Boolean records whether an event was actually signed, which in the
code happens only in the branch that produces a result. -/
def handle_nip07_request (perms : Option PermissionCache)
    (pubkey : Option String) (keys : Option String)
    (signEventFn : String → SignEventParams → Except String String)
    (method : String) (params : Nip07Params) (origin : String) :
    Nip07Response × Bool :=
  if method == "getPublicKey" then
    let allowed :=
      match perms with
      | some ps => (is_granted ps origin PermissionType.getPublicKey).getD true
      | none => true
    if !allowed then (⟨none, some ("Permission denied")⟩, false)
    else
      match pubkey with
      | some pk => (⟨some pk, none⟩, false)
      | none => (⟨none, some ("No identity set")⟩, false)
  else if method == "signEvent" then
    let allowed :=
      match perms with
      | some ps => (is_granted ps origin PermissionType.signEvent).getD false
      | none => true
    if !allowed then (⟨none, some ("Permission denied")⟩, false)
    else
      match params.event with
      | none => (⟨none, some ("Missing event parameter")⟩, false)
      | some ev =>
        match keys with
        | none => (⟨none, some ("No signing keys available")⟩, false)
        | some ks =>
          match ev.kind with
          | none => (⟨none, some ("Missing kind")⟩, false)
          | some _ =>
            match signEventFn ks ev with
            | Except.ok signedJson => (⟨some signedJson, none⟩, true)
            | Except.error e =>
              (⟨none, some ("Failed to sign event: " ++ e)⟩, false)
  else if method == "getRelays" then (⟨some ("{}"), none⟩, false)
  else if method == "nip04.encrypt" || method == "nip04.decrypt"
      || method == "nip44.encrypt" || method == "nip44.decrypt" then
    (⟨none, some ("Not implemented")⟩, false)
  else (⟨none, some ("Unknown method: " ++ method)⟩, false)

/-- HTTP reply of the nip07 route: status code, JSON body, and the record of
whether an event was signed while handling the request. -/
structure Nip07HttpReply where
  status : Nat
  response : Nip07Response
  signed : Bool
deriving DecidableEq

/-- Embedding of the HTTP wrapper handle_nip07_request in htree.rs: missing
session token gives 401, uninitialized state gives 500, a token that fails
origin-scoped validation gives 403, and otherwise the inner NIP-07 handler
runs with the permission store attached and its response is returned with
status 200. -/
def handle_nip07_http (sessionToken : Option String)
    (validateToken : String → String → Bool) (stateReady : Bool)
    (perms : PermissionCache) (pubkey : Option String) (keys : Option String)
    (signEventFn : String → SignEventParams → Except String String)
    (method : String) (params : Nip07Params) (origin : String) :
    Nip07HttpReply :=
  match sessionToken with
  | none => ⟨401, ⟨none, some ("Missing session token")⟩, false⟩
  | some token =>
    if !stateReady then ⟨500, ⟨none, some ("NIP-07 state not initialized")⟩, false⟩
    else if !(validateToken origin token) then
      ⟨403, ⟨none, some ("Invalid session token")⟩, false⟩
    else
      let r := handle_nip07_request (some perms) pubkey keys signEventFn
        method params origin
      ⟨200, r.1, r.2⟩

/-- Directory entry as returned by list_directory; the size and link type
fields play no role in the thumbnail search and are omitted. -/
structure DirEntry where
  name : String
  hash : Nat
  key : Option Nat
deriving DecidableEq

/-- Thumbnail file patterns of htree.rs, in probing order. -/
def thumbnail_patterns : List String :=
  ["thumbnail.jpg", "thumbnail.webp", "thumbnail.png", "thumbnail.jpeg"]

/-- Video extensions of htree.rs. -/
def video_extensions : List String :=
  [".mp4", ".webm", ".mkv", ".mov", ".avi", ".m4v"]

/-- Embedding of is_video_filename from htree.rs. -/
def is_video_filename (name : String) : Bool :=
  listStartsWith name.data ("video.".data)
    || video_extensions.any (fun ext => listEndsWith name.data ext.data)

/-- Embedding of is_metadata_filename from htree.rs. -/
def is_metadata_filename (name : String) : Bool :=
  listEndsWith name.data (".json".data) || listEndsWith name.data (".txt".data)

/-- Path join used by find_thumbnail_in_dir: an empty directory path joins
to the bare name. -/
def thumb_join (dirPath nm : String) : String :=
  if dirPath.data.isEmpty then nm else dirPath ++ "/" ++ nm

/-- First thumbnail pattern present among the entries, in pattern order, as
in the pattern loop of find_thumbnail_in_dir. -/
def find_pattern (entries : List DirEntry) : Option String :=
  thumbnail_patterns.find? (fun pat => entries.any (fun e => e.name == pat))

/-- Stable sort of directory entries by name, byte-lexicographically, as in
the sort_by call of find_thumbnail_in_dir. -/
def sort_by_name (entries : List DirEntry) : List DirEntry :=
  sortByLe (fun a b => charsLe a.name.data b.name.data) entries

/-- Subdirectory probe loop of find_thumbnail_in_dir, exactly as written in
the source: iterate the given (already truncated) entry list, skipping
metadata names inside the loop, listing each remaining entry as a directory
(errors skip the entry) and returning the first thumbnail pattern found. -/
def probe_subdirs (listDir : Nat → Option Nat → Except String (List DirEntry))
    (dirPath : String) : List DirEntry → Option String
  | [] => none
  | entry :: rest =>
    if is_metadata_filename entry.name then probe_subdirs listDir dirPath rest
    else
      match listDir entry.hash entry.key with
      | Except.error _ => probe_subdirs listDir dirPath rest
      | Except.ok subEntries =>
        match find_pattern subEntries with
        | some pat => some (thumb_join dirPath entry.name ++ "/" ++ pat)
        | none => probe_subdirs listDir dirPath rest

/-- Plain probe over a list of candidate subdirectories, with no metadata
skipping; the comparison definition used to characterize which entries the
code actually probes. -/
def probe_list (listDir : Nat → Option Nat → Except String (List DirEntry))
    (dirPath : String) : List DirEntry → Option String
  | [] => none
  | entry :: rest =>
    match listDir entry.hash entry.key with
    | Except.error _ => probe_list listDir dirPath rest
    | Except.ok subEntries =>
      match find_pattern subEntries with
      | some pat => some (thumb_join dirPath entry.name ++ "/" ++ pat)
      | none => probe_list listDir dirPath rest

/-- Embedding of HtreeState::find_thumbnail_in_dir from htree.rs, from the
point where the directory CID is known.  The parameter listDir stands for
tree.list_directory keyed by hash and optional key.  Look for a thumbnail
pattern in the directory itself; otherwise, when no video file is present
and the directory is nonempty, sort the entries by name, take the first
three, and probe them as subdirectories, skipping metadata names. -/
def find_thumbnail_in_dir
    (listDir : Nat → Option Nat → Except String (List DirEntry))
    (dirCid : Cid) (dirPath : String) : Except String (Option String) :=
  match listDir dirCid.hash dirCid.key with
  | Except.error e => Except.error e
  | Except.ok entries =>
    match find_pattern entries with
    | some pat => Except.ok (some (thumb_join dirPath pat))
    | none =>
      let hasVideoFile := entries.any (fun e => is_video_filename e.name)
      if !hasVideoFile && !entries.isEmpty then
        Except.ok (probe_subdirs listDir dirPath ((sort_by_name entries).take 3))
      else Except.ok none

/-- The claim C5 as stated, following the spec wording: metadata entries are
not among the probed subdirectories and do not consume probe slots, so the
probe runs over the three alphabetically-earliest non-metadata entries. -/
def find_thumbnail_in_dir_claim
    (listDir : Nat → Option Nat → Except String (List DirEntry))
    (dirCid : Cid) (dirPath : String) : Except String (Option String) :=
  match listDir dirCid.hash dirCid.key with
  | Except.error e => Except.error e
  | Except.ok entries =>
    match find_pattern entries with
    | some pat => Except.ok (some (thumb_join dirPath pat))
    | none =>
      let hasVideoFile := entries.any (fun e => is_video_filename e.name)
      if !hasVideoFile && !entries.isEmpty then
        Except.ok (probe_list listDir dirPath
          (((sort_by_name entries).filter
            (fun e => !(is_metadata_filename e.name))).take 3))
      else Except.ok none

/-- Concrete directory fixture: the root directory 0 holds a metadata file
and three subdirectories b, c, d, and only d contains a thumbnail. -/
def thumbDemoDir : Nat → Option Nat → Except String (List DirEntry) :=
  fun h _ =>
    if h == 0 then
      Except.ok [⟨"a.json", 1, none⟩, ⟨"b", 2, none⟩, ⟨"c", 3, none⟩, ⟨"d", 4, none⟩]
    else if h == 2 then Except.ok []
    else if h == 3 then Except.ok []
    else if h == 4 then Except.ok [⟨"thumbnail.jpg", 5, none⟩]
    else Except.error ("not a directory")

/-- Active subscription record of worker/nostr.rs: the filters (opaque
identifiers standing for the nostr-sdk Filter values), the optional backend
subscription id, and the set of relay URLs that have accepted the
subscription. -/
structure ActiveSubscription where
  filters : List Nat
  sdkId : Option String
  sentTo : List String
deriving DecidableEq

/-- In-place update of one registry entry, modelling the get_mut call on the
subscription map. -/
def update_subscription (subs : List (String × ActiveSubscription))
    (subId : String) (f : ActiveSubscription → ActiveSubscription) :
    List (String × ActiveSubscription) :=
  subs.map (fun p => if p.1 == subId then (p.1, f p.2) else p)

/-- One re-issue step of retry_pending_subscriptions: subscribe_with_id is
modelled by clientSubscribe sdkId filters, whose Ok value carries the relay
URLs that accepted; on success the entry's backend id is set, sent_to is
cleared and refilled with the accepted URLs, and on failure the entry is
left as it was.  An item is the pending triple of subscription id, filters
and backend id. -/
def retry_step (clientSubscribe : String → List Nat → Except String (List String))
    (acc : List (String × ActiveSubscription) × List String)
    (item : String × List Nat × String) :
    List (String × ActiveSubscription) × List String :=
  match clientSubscribe item.2.2 item.2.1 with
  | Except.ok successUrls =>
    (update_subscription acc.1 item.1
      (fun a => { a with sdkId := some item.2.2, sentTo := successUrls }),
     acc.2 ++ [item.1])
  | Except.error _ => (acc.1, acc.2 ++ [item.1])

/-- Embedding of NostrManager::retry_pending_subscriptions from
worker/nostr.rs: one round of the background retry task that
start_event_listener runs every two seconds.  The pending snapshot collects
exactly the registered subscriptions whose sent_to set is empty, with the
backend id defaulting to the subscription id, and each is re-issued in
turn.  Returns the updated registry together with the list of re-issued
subscription ids. -/
def retry_pending_subscriptions
    (clientSubscribe : String → List Nat → Except String (List String))
    (subs : List (String × ActiveSubscription)) :
    List (String × ActiveSubscription) × List String :=
  let pending := (subs.filter (fun p => p.2.sentTo.isEmpty)).map
    (fun p => (p.1, p.2.filters, p.2.sdkId.getD p.1))
  pending.foldl (retry_step clientSubscribe) (subs, [])

/-- Concrete client fixture for the retry round: only the backend id s1 is
accepted, by one relay. -/
def retryDemoClient : String → List Nat → Except String (List String) :=
  fun sd _ => if sd == "s1" then Except.ok ["wss://a"] else Except.error ("no relay")

/-- Concrete registry fixture: s1 has never been accepted anywhere, s2 is
already recorded at one relay. -/
def retryDemoSubs : List (String × ActiveSubscription) :=
  [("s1", ⟨[1], none, []⟩), ("s2", ⟨[2], some ("x"), ["wss://r"]⟩)]

/-- History entry of history.rs. -/
structure HistoryEntry where
  path : String
  label : String
  entryType : String
  npub : Option String
  treeName : Option String
  visitCount : Nat
  lastVisited : Nat
  firstVisited : Nat
deriving DecidableEq

/-- Capacity bound of the history store. -/
def max_history_entries : Nat := 1000

/-- The LMDB database of the history store, modelled as an association list
keyed by path.  Upsert: replace the value at an existing key, otherwise
append.  The embedding iterates entries in list order where LMDB iterates
in key order; the difference only affects which entry is evicted among
exact last-visited ties, which no claim depends on. -/
def db_put : List (String × HistoryEntry) → String → HistoryEntry →
    List (String × HistoryEntry)
  | [], k, v => [(k, v)]
  | (k', v') :: rest, k, v =>
    if k == k' then (k, v) :: rest
    else (k', v') :: db_put rest k v

/-- History store state: the database plus the cached entry count that
HistoryStore maintains alongside it. -/
structure HistoryStore where
  db : List (String × HistoryEntry)
  entryCount : Nat
deriving DecidableEq

/-- One deletion step of evict_oldest: remove the entry at the given key
and decrement the cached count, as the delete loop does per path. -/
def evict_step (acc : HistoryStore) (k : String) : HistoryStore :=
  { db := acc.db.filter (fun p => !(p.1 == k)), entryCount := acc.entryCount - 1 }

/-- Embedding of HistoryStore::evict_oldest from history.rs: collect every
entry's key and last-visited stamp, stable-sort ascending by stamp, and
delete the oldest tenth of the entries, at least one, decrementing the
count per deletion. -/
def evict_oldest (st : HistoryStore) : HistoryStore :=
  let entries := st.db.map (fun p => (p.1, p.2.lastVisited))
  let sorted := sortByLe (fun a b => decide (a.2 ≤ b.2)) entries
  let toRemove := entries.length / 10
  ((sorted.take (max toRemove 1)).map Prod.fst).foldl evict_step st

/-- Embedding of HistoryStore::record_visit from history.rs: an upsert
keyed by path.  An existing entry takes the new label, increments its visit
count and refreshes last_visited; for a new path, when the cached count has
reached the capacity, the oldest tenth is evicted first, then the entry is
inserted and the count incremented. -/
def record_visit (st : HistoryStore) (entry : HistoryEntry) : HistoryStore :=
  match st.db.lookup entry.path with
  | some existing =>
    let updated := { existing with
      label := entry.label
      visitCount := existing.visitCount + 1
      lastVisited := entry.lastVisited }
    { st with db := db_put st.db updated.path updated }
  | none =>
    let st1 := if st.entryCount ≥ max_history_entries then evict_oldest st else st
    { db := db_put st1.db entry.path entry, entryCount := st1.entryCount + 1 }

/-- Link inside a decoded tree node: child hash and optional CHK key. -/
structure TreeLink where
  hash : Nat
  key : Option Nat
deriving DecidableEq

/-- Decoded tree node: its ordered child links. -/
structure TreeNodeData where
  links : List TreeLink
deriving DecidableEq

/-- Block returned by the tree walk: its hash and raw data. -/
structure WalkBlock where
  hash : Nat
  data : Bytes
deriving DecidableEq

/-- Child links of a block as walk_blocks_recursive computes them: with a
key present the data is CHK-decrypted first, a failed decryption yielding no
children; then the bytes are tentatively decoded as a tree node, a non-node
yielding no children.  decryptChk and tryDecodeTreeNode stand for the
hashtree-core codec, abstract in this embedding. -/
def walk_links (decryptChk : Bytes → Nat → Option Bytes)
    (tryDecodeTreeNode : Bytes → Option TreeNodeData)
    (data : Bytes) (key : Option Nat) : List TreeLink :=
  match key with
  | some k =>
    match decryptChk data k with
    | some decrypted =>
      match tryDecodeTreeNode decrypted with
      | some node => node.links
      | none => []
    | none => []
  | none =>
    match tryDecodeTreeNode data with
    | some node => node.links
    | none => []

/-- Embedding of TreeManager::walk_blocks_recursive from worker/tree.rs.
The store holds the local blob store contents as a finite map.  Already
visited hashes return immediately; a hash absent from the store is skipped
silently; otherwise the block is appended and the children are walked in
order, threading the visited set.  The fuel argument bounds the recursion
depth for Lean; none models a hypothetical fuel exhaustion, proved
unreachable for the fuel that walk_blocks supplies. -/
def walk_blocks_recursive (store : List (Nat × Bytes))
    (decryptChk : Bytes → Nat → Option Bytes)
    (tryDecodeTreeNode : Bytes → Option TreeNodeData) :
    Nat → Nat → Option Nat → List WalkBlock → List Nat →
    Option (List WalkBlock × List Nat)
  | 0, _, _, _, _ => none
  | Nat.succ fuel, hsh, key, blocks, visited =>
    if hsh ∈ visited then some (blocks, visited)
    else
      match store.lookup hsh with
      | none => some (blocks, hsh :: visited)
      | some data =>
        (walk_links decryptChk tryDecodeTreeNode data key).foldl
          (fun acc link =>
            match acc with
            | none => none
            | some (b, v) =>
              walk_blocks_recursive store decryptChk tryDecodeTreeNode fuel
                link.hash link.key b v)
          (some (blocks ++ [⟨hsh, data⟩], hsh :: visited))

/-- Embedding of TreeManager::walk_blocks: walk from the root CID with an
empty block list and visited set.  The fuel one past the store size is shown
below to never run out. -/
def walk_blocks (store : List (Nat × Bytes))
    (decryptChk : Bytes → Nat → Option Bytes)
    (tryDecodeTreeNode : Bytes → Option TreeNodeData) (cid : Cid) :
    Option (List WalkBlock) :=
  match walk_blocks_recursive store decryptChk tryDecodeTreeNode
      (store.length + 1) cid.hash cid.key [] [] with
  | some (blocks, _) => some blocks
  | none => none

/-- Number of store keys not yet visited: the termination measure of the
walk. -/
def unvisited_count (store : List (Nat × Bytes)) (visited : List Nat) : Nat :=
  ((store.map Prod.fst).filter (fun h => !(visited.contains h))).length

/-- Invariant of the walk: every collected block is marked visited, block
hashes are pairwise distinct, and every collected block carries exactly the
store bytes of its hash. -/
def walk_inv (store : List (Nat × Bytes)) (blocks : List WalkBlock)
    (visited : List Nat) : Prop :=
  (∀ b ∈ blocks, b.hash ∈ visited) ∧
  (blocks.map (fun b => b.hash)).Nodup ∧
  (∀ b ∈ blocks, store.lookup b.hash = some b.data)

/-- Concrete cyclic fixture: block 1 links to block 2, which links back to
block 1. -/
def walkDemoStore : List (Nat × Bytes) := [(1, [0]), (2, [1])]

/-- Concrete decoder for the cyclic fixture. -/
def walkDemoDecode : Bytes → Option TreeNodeData :=
  fun d =>
    if d == [0] then some ⟨[⟨2, none⟩]⟩
    else if d == [1] then some ⟨[⟨1, none⟩]⟩
    else none

/-- Score increment of one matched character in the subsequence loop of
fuzzy_match_string (history.rs): +0.5 for a consecutive match, +0.3 at a
word boundary, +0.2 per match, added in the order of the Rust statements.
The embedding carries the previous target character instead of indexing
target_chars[target_idx - 1]; it is none exactly at index 0.  Scores are
exact rationals standing for the f64 values, which are exact here. -/
def code_match_score (tIdx : Nat) (prevChar : Option Char)
    (prevMatch : Option Nat) (score : ℚ) : ℚ :=
  score +
    (match prevMatch with
      | some prev => if tIdx == prev + 1 then (1/2 : ℚ) else 0
      | none => 0) +
    (match prevChar with
      | none => (3/10 : ℚ)
      | some pc => if ! pc.isAlphanum then (3/10 : ℚ) else 0) +
    1/5

/-- The same increment following the claim wording: add 0.2, +0.3 at a word
boundary (index 0 or previous char non-alphanumeric), +0.5 if
consecutive. -/
def spec_match_score (tIdx : Nat) (prevChar : Option Char)
    (prevMatch : Option Nat) (score : ℚ) : ℚ :=
  let s1 : ℚ := score + 1/5
  let s2 : ℚ :=
    if tIdx == 0 || (match prevChar with
        | none => true
        | some pc => ! pc.isAlphanum) then s1 + 3/10
    else s1
  match prevMatch with
  | some prev => if tIdx == prev + 1 then s2 + 1/2 else s2
  | none => s2

/-- The subsequence loop of fuzzy_match_string: iterate the target
characters, consuming query characters in order; returns the accumulated
score and the number of query characters consumed. -/
def fuzzy_subseq_go (queryChars : List Char) :
    List Char → Nat → Option Char → Nat → ℚ → Option Nat → ℚ × Nat
  | [], _, _, qIdx, score, _ => (score, qIdx)
  | tc :: rest, tIdx, prevChar, qIdx, score, prevMatch =>
    match queryChars.get? qIdx with
    | some qc =>
      if tc == qc then
        fuzzy_subseq_go queryChars rest (tIdx + 1) (some tc) (qIdx + 1)
          (code_match_score tIdx prevChar prevMatch score) (some tIdx)
      else
        fuzzy_subseq_go queryChars rest (tIdx + 1) (some tc) qIdx score prevMatch
    | none => fuzzy_subseq_go queryChars rest (tIdx + 1) (some tc) qIdx score prevMatch

/-- The same loop with the claim's bonus accumulation. -/
def fuzzy_subseq_spec_go (queryChars : List Char) :
    List Char → Nat → Option Char → Nat → ℚ → Option Nat → ℚ × Nat
  | [], _, _, qIdx, score, _ => (score, qIdx)
  | tc :: rest, tIdx, prevChar, qIdx, score, prevMatch =>
    match queryChars.get? qIdx with
    | some qc =>
      if tc == qc then
        fuzzy_subseq_spec_go queryChars rest (tIdx + 1) (some tc) (qIdx + 1)
          (spec_match_score tIdx prevChar prevMatch score) (some tIdx)
      else
        fuzzy_subseq_spec_go queryChars rest (tIdx + 1) (some tc) qIdx score prevMatch
    | none => fuzzy_subseq_spec_go queryChars rest (tIdx + 1) (some tc) qIdx score prevMatch

/-- Subsequence score of fuzzy_match_string: the accumulated score if all
of the query was consumed, else 0. -/
def fuzzy_subsequence (query target : List Char) : ℚ :=
  match fuzzy_subseq_go query target 0 none 0 0 none with
  | (score, qIdx) => if qIdx == query.length then score else 0

/-- Subsequence score stated from the claim wording. -/
def fuzzy_subsequence_spec (query target : List Char) : ℚ :=
  match fuzzy_subseq_spec_go query target 0 none 0 0 none with
  | (score, qIdx) => if qIdx == query.length then score else 0

/-- fuzzy_match_string of history.rs on character lists.  Lengths |q| and
|t| are character counts where Rust str::len counts bytes; the two agree on
ASCII data, which is all the claims exercise (likewise Char.isAlphanum is
the ASCII reading of Rust char::is_alphanumeric). -/
def fuzzy_match_string (query target : List Char) : ℚ :=
  if query.isEmpty || target.isEmpty then 0
  else if target == query then 10
  else if listStartsWith target query then
    8 + (query.length : ℚ) / (target.length : ℚ)
  else if listContainsSeq target query then
    5 + (query.length : ℚ) / (target.length : ℚ)
  else
    match (splitBy (fun c => ! c.isAlphanum) target).find?
        (fun w => listStartsWith w query) with
    | some word => 4 + (query.length : ℚ) / (word.length : ℚ)
    | none => fuzzy_subsequence query target

/-- fuzzy_match_string as the claim states it: the same case chain but with
no guard for an empty query or target. -/
def fuzzy_match_string_spec (query target : List Char) : ℚ :=
  if target == query then 10
  else if listStartsWith target query then
    8 + (query.length : ℚ) / (target.length : ℚ)
  else if listContainsSeq target query then
    5 + (query.length : ℚ) / (target.length : ℚ)
  else
    match (splitBy (fun c => ! c.isAlphanum) target).find?
        (fun w => listStartsWith w query) with
    | some word => 4 + (query.length : ℚ) / (word.length : ℚ)
    | none => fuzzy_subsequence_spec query target

/-- The claim's case chain amended with the code's empty guard:
fuzzy_match_string returns 0 when the query or the target is empty. -/
def fuzzy_match_string_amended (query target : List Char) : ℚ :=
  if query.isEmpty || target.isEmpty then 0
  else fuzzy_match_string_spec query target

/-- fuzzy_score of history.rs: fold of f64::max starting from 0.0 over the
weighted candidates, plus the frequency boost.  The transcendental
ln(1 + visitCount) is abstracted as the function argument ln1p. -/
def fuzzy_score (ln1p : Nat → ℚ) (query : List Char) (entry : HistoryEntry) : ℚ :=
  let m1 := max (0 : ℚ)
    (fuzzy_match_string query (listToLower entry.label.data) * 1)
  let m2 := max m1
    (fuzzy_match_string query (listToLower entry.path.data) * (4/5))
  let m3 := match entry.treeName with
    | some tn => max m2
        (fuzzy_match_string query (listToLower tn.data) * (7/10))
    | none => m2
  m3 + ln1p entry.visitCount * (1/10)

/-- fuzzy_score as the claim states it: the maximum over the weighted
candidates (label, path, treeName if present) of the claim's
fuzzy_match_string, plus the frequency boost. -/
def fuzzy_score_spec (ln1p : Nat → ℚ) (query : List Char)
    (entry : HistoryEntry) : ℚ :=
  let sl := fuzzy_match_string_spec query (listToLower entry.label.data) * 1
  let sp := fuzzy_match_string_spec query (listToLower entry.path.data) * (4/5)
  let m := match entry.treeName with
    | some tn => max (max sl sp)
        (fuzzy_match_string_spec query (listToLower tn.data) * (7/10))
    | none => max sl sp
  m + ln1p entry.visitCount * (1/10)

/-- The claim's fuzzy_score with the amended fuzzy_match_string. -/
def fuzzy_score_amended (ln1p : Nat → ℚ) (query : List Char)
    (entry : HistoryEntry) : ℚ :=
  let sl := fuzzy_match_string_amended query (listToLower entry.label.data) * 1
  let sp := fuzzy_match_string_amended query (listToLower entry.path.data) * (4/5)
  let m := match entry.treeName with
    | some tn => max (max sl sp)
        (fuzzy_match_string_amended query (listToLower tn.data) * (7/10))
    | none => max sl sp
  m + ln1p entry.visitCount * (1/10)

/-- Concrete entry on which the claim's score and the code's score
diverge for the empty query. -/
def fuzzyDemoEntry : HistoryEntry :=
  { path := "a", label := "a", entryType := "file", npub := none, treeName := none, visitCount := 0, lastVisited := 0, firstVisited := 0 }

/-- Concrete entry exercising the subsequence branch: the query ht matches
h and the t of tree, with word-boundary bonuses at both. -/
def fuzzyDemoEntry2 : HistoryEntry :=
  { path := "x", label := "hash tree", entryType := "dir", npub := none, treeName := none, visitCount := 0, lastVisited := 0, firstVisited := 0 }

-- ===================== Theorems =====================

/-- Helper: a successful association-list lookup comes from a member. -/
theorem lookup_mem {α β : Type} [BEq α] [LawfulBEq α] {l : List (α × β)}
    {k : α} {v : β} (h : l.lookup k = some v) : (k, v) ∈ l := by
  induction l with
  | nil => exact absurd h (by simp)
  | cons p rest ih =>
    rw [List.lookup] at h
    split at h
    · rename_i hbeq
      have hk : k = p.1 := eq_of_beq hbeq
      have hv : p.2 = v := Option.some.inj h
      exact List.mem_cons.mpr (Or.inl (by rw [hk, ← hv]))
    · exact List.mem_cons_of_mem p (ih h)

/-- Helper: with duplicate-free keys, membership determines the lookup. -/
theorem mem_lookup_of_nodup {α β : Type} [BEq α] [LawfulBEq α]
    {l : List (α × β)} {k : α} {v : β} (hnd : (l.map Prod.fst).Nodup)
    (h : (k, v) ∈ l) : l.lookup k = some v := by
  induction l with
  | nil => exact absurd h (by simp)
  | cons p rest ih =>
    rcases List.mem_cons.mp h with heq | hmem
    · rw [← heq]
      simp [List.lookup]
    · have hkf : (k == p.1) = false := by
        rw [beq_eq_false_iff_ne]
        intro hke
        have : p.1 ∈ rest.map Prod.fst := by
          rw [← hke]
          exact List.mem_map_of_mem Prod.fst hmem
        exact (List.nodup_cons.mp hnd).1 this
      rw [List.lookup, hkf]
      exact ih (List.nodup_cons.mp hnd).2 hmem

/-- Helper: a successfully parsed range is well-formed with respect to the
total size. -/
theorem parse_range_header_bounds (hdr : String) (n s e : Nat)
    (h : parse_range_header hdr n = some (s, e)) : s ≤ e ∧ s < n ∧ e < n := by
  unfold parse_range_header at h
  split at h
  · simp at h
  · split at h
    · split at h
      · split at h
        · simp at h
        · split at h
          · simp at h
          · split at h
            · simp at h
            · rename_i hv
              rw [Option.some_inj, Prod.mk.injEq] at h
              obtain ⟨hs, he⟩ := h
              push_neg at hv
              omega
      · simp at h
    · simp at h

/-- C1: the combined store behaves as the composition of the local store and
Blossom.  A get is served from the local store, without touching Blossom or
the state, whenever the local store has the hash; on a local miss with a
Blossom hit the Blossom bytes are returned and written through into the local
store best-effort, with a failed cache fill not propagated and the Blossom
side untouched; put writes only to the local store; delete deletes only from
the local store and never from Blossom. -/
theorem combined_store_tiered (s : CombinedStore) (h : Nat) (b d : Bytes) :
    (s.localStore.get h = some b → s.get h = (Except.ok (some b), s)) ∧
    (s.localStore.get h = none → s.blossomErr = false → s.blossom.lookup h = some d →
       (s.get h).1 = Except.ok (some d) ∧
       (s.get h).2.localStore = (s.localStore.put h d).2 ∧
       (s.get h).2.blossom = s.blossom ∧
       (s.get h).2.blossomErr = s.blossomErr) ∧
    ((s.put h b).1 = (s.localStore.put h b).1 ∧
       (s.put h b).2 = { s with localStore := (s.localStore.put h b).2 }) ∧
    ((s.delete h).1 = (s.localStore.delete h).1 ∧
       (s.delete h).2 = { s with localStore := (s.localStore.delete h).2 }) := by
  refine ⟨?_, ?_, ⟨rfl, rfl⟩, ⟨rfl, rfl⟩⟩
  · intro hb
    simp [CombinedStore.get, hb]
  · intro h1 h2 h3
    simp [CombinedStore.get, h1, h2, h3]

/-- Witness for C1 at concrete inputs: empty local store with failing disk
writes, Blossom holding hash 7; the get still succeeds with the Blossom bytes
and leaves the Blossom contents untouched. -/
theorem combined_store_tiered_witness :
    (CombinedStore.get ⟨⟨[], true⟩, [(7, [9])], false⟩ 7).1 = Except.ok (some [9]) ∧
    (CombinedStore.get ⟨⟨[], true⟩, [(7, [9])], false⟩ 7).2.blossom = [(7, [9])] := by
  have h := combined_store_tiered ⟨⟨[], true⟩, [(7, [9])], false⟩ 7 [] [9]
  exact ⟨(h.2.1 rfl rfl rfl).1, (h.2.1 rfl rfl rfl).2.2.1⟩

/-- C3: evaluation of the suffix-range code at the failing inputs.  On a
100-byte file the header bytes equals minus 10 is rejected, so the gateway
serves the full body, although the code comment (last 500 bytes) and the spec
call for the last 10 bytes, the pair (90, 99); and the header bytes equals
minus 60 yields (40, 60) where the claim requires (40, 99): the code assigns
the parsed suffix length to the end position instead of the end of file. -/
theorem parse_range_header_suffix_bug :
    parse_range_header ("bytes=-10") 100 = none ∧
    parse_range_header ("bytes=-60") 100 = some (40, 60) := by
  exact ⟨by decide, by decide⟩

/-- Helper: the Nostr half of resolve_tree always reports that Nostr was
queried. -/
theorem resolve_tree_nostr_queried (cache : List (String × CachedRoot))
    (cacheKey : String) (nostr : Except String (Option Cid)) :
    (resolve_tree_nostr cache cacheKey nostr).queriedNostr = true := by
  unfold resolve_tree_nostr
  cases nostr with
  | error e => rfl
  | ok o => cases o <;> rfl

/-- C2: a cached root is served without querying Nostr exactly when the
root cache holds the key npub slash treeName and either the cached CID
carries its decryption key or the cached root block is retrievable from the
store and confirmed to be a tree node; in that served case the cached CID is
returned and the cache is left untouched (the probe is a peek, so the LRU
order is not updated); in every other case resolution queries Nostr. -/
theorem resolve_tree_cache_policy (cache : List (String × CachedRoot))
    (storeGet : Nat → Option Bytes) (isTreeNode : Bytes → Bool)
    (nostr : Except String (Option Cid)) (npub treeName : String) :
    ((resolve_tree cache storeGet isTreeNode nostr npub treeName).queriedNostr = false ↔
      ∃ entry, lru_peek cache (npub ++ "/" ++ treeName) = some entry ∧
        (entry.cid.key.isSome = true ∨
          ∃ d, storeGet entry.cid.hash = some d ∧ isTreeNode d = true)) ∧
    (∀ entry, lru_peek cache (npub ++ "/" ++ treeName) = some entry →
       (entry.cid.key.isSome = true ∨
         ∃ d, storeGet entry.cid.hash = some d ∧ isTreeNode d = true) →
       resolve_tree cache storeGet isTreeNode nostr npub treeName =
         ⟨Except.ok entry.cid, cache, false⟩) := by
  cases hpeek : lru_peek cache (npub ++ "/" ++ treeName) with
  | none =>
    have hres : resolve_tree cache storeGet isTreeNode nostr npub treeName =
        resolve_tree_nostr cache (npub ++ "/" ++ treeName) nostr := by
      simp [resolve_tree, hpeek]
    refine ⟨⟨fun hq => ?_, fun hex => ?_⟩, fun entry he _ => ?_⟩
    · rw [hres, resolve_tree_nostr_queried] at hq
      exact absurd hq (by simp)
    · obtain ⟨entry, he, _⟩ := hex
      exact absurd he (by simp)
    · exact absurd he (by simp)
  | some entry =>
    cases hkey : entry.cid.key.isSome with
    | true =>
      have hres : resolve_tree cache storeGet isTreeNode nostr npub treeName =
          ⟨Except.ok entry.cid, cache, false⟩ := by
        simp [resolve_tree, hpeek, hkey]
      refine ⟨⟨fun _ => ⟨entry, rfl, Or.inl hkey⟩, fun _ => ?_⟩,
        fun entry' he' _ => ?_⟩
      · rw [hres]
      · injection he' with h''
        subst h''
        exact hres
    | false =>
      cases hget : storeGet entry.cid.hash with
      | none =>
        have hres : resolve_tree cache storeGet isTreeNode nostr npub treeName =
            resolve_tree_nostr cache (npub ++ "/" ++ treeName) nostr := by
          simp [resolve_tree, hpeek, hkey, hget]
        refine ⟨⟨fun hq => ?_, fun hex => ?_⟩, fun entry' he' hcond => ?_⟩
        · rw [hres, resolve_tree_nostr_queried] at hq
          exact absurd hq (by simp)
        · obtain ⟨entry', he', hcond⟩ := hex
          injection he' with h''
          subst h''
          rcases hcond with hk | ⟨d, hd, _⟩
          · rw [hkey] at hk
            exact absurd hk (by simp)
          · rw [hget] at hd
            exact absurd hd (by simp)
        · injection he' with h''
          subst h''
          rcases hcond with hk | ⟨d, hd, _⟩
          · rw [hkey] at hk
            exact absurd hk (by simp)
          · rw [hget] at hd
            exact absurd hd (by simp)
      | some d =>
        cases htn : isTreeNode d with
        | true =>
          have hres : resolve_tree cache storeGet isTreeNode nostr npub treeName =
              ⟨Except.ok entry.cid, cache, false⟩ := by
            simp [resolve_tree, hpeek, hkey, hget, htn]
          refine ⟨⟨fun _ => ⟨entry, rfl, Or.inr ⟨d, hget, htn⟩⟩, fun _ => ?_⟩,
            fun entry' he' _ => ?_⟩
          · rw [hres]
          · injection he' with h''
            subst h''
            exact hres
        | false =>
          have hres : resolve_tree cache storeGet isTreeNode nostr npub treeName =
              resolve_tree_nostr cache (npub ++ "/" ++ treeName) nostr := by
            simp [resolve_tree, hpeek, hkey, hget, htn]
          refine ⟨⟨fun hq => ?_, fun hex => ?_⟩, fun entry' he' hcond => ?_⟩
          · rw [hres, resolve_tree_nostr_queried] at hq
            exact absurd hq (by simp)
          · obtain ⟨entry', he', hcond⟩ := hex
            injection he' with h''
            subst h''
            rcases hcond with hk | ⟨d', hd', htn'⟩
            · rw [hkey] at hk
              exact absurd hk (by simp)
            · rw [hget] at hd'
              injection hd' with hd''
              subst hd''
              rw [htn] at htn'
              exact absurd htn' (by simp)
          · injection he' with h''
            subst h''
            rcases hcond with hk | ⟨d', hd', htn'⟩
            · rw [hkey] at hk
              exact absurd hk (by simp)
            · rw [hget] at hd'
              injection hd' with hd''
              subst hd''
              rw [htn] at htn'
              exact absurd htn' (by simp)

/-- Witness for C2 at concrete inputs: a cached entry whose CID carries its
key is served unchanged, without a Nostr query, even though the store has
nothing and the Nostr outcome would be empty. -/
theorem resolve_tree_cache_policy_witness :
    resolve_tree [("n/t", ⟨⟨1, some 2⟩, TreeVisibility.publicVis⟩)]
        (fun _ => none) (fun _ => false) (Except.ok none) ("n") ("t") =
      ⟨Except.ok ⟨1, some 2⟩, [("n/t", ⟨⟨1, some 2⟩, TreeVisibility.publicVis⟩)], false⟩ := by
  exact (resolve_tree_cache_policy [("n/t", ⟨⟨1, some 2⟩, TreeVisibility.publicVis⟩)]
    (fun _ => none) (fun _ => false) (Except.ok none) ("n") ("t")).2
    ⟨⟨1, some 2⟩, TreeVisibility.publicVis⟩ (by decide) (Or.inl (by decide))

/-- C4: for an encrypted file CID (key present) with the full plaintext
fetched and decrypted, a Range header that parses against the plaintext
length yields a 206 response whose body is exactly the inclusive slice of
the plaintext, with exactly stop minus start plus one bytes, and a
Content-Range header formatted over the full plaintext length; a header
that does not parse yields the full plaintext with status 200. -/
theorem encrypted_range_slices_plaintext (plaintext : Bytes)
    (fileSize : Except String Nat)
    (readFileRange : Nat → Nat → Except String Bytes) (hsh k : Nat)
    (contentType : String) (hdr : String) :
    (∀ s e_, parse_range_header hdr plaintext.length = some (s, e_) →
       handle_htree_request (Except.ok plaintext) fileSize readFileRange
           ⟨hsh, some k⟩ contentType (some hdr) =
         Except.ok
           { status := 206
             contentType := contentType
             contentLength := e_ - s + 1
             contentRange := some ("bytes " ++ toString s ++ "-" ++ toString e_
               ++ "/" ++ toString plaintext.length)
             acceptRanges := true
             body := sliceRange plaintext s e_ } ∧
       (sliceRange plaintext s e_).length = e_ - s + 1 ∧
       sliceRange plaintext s e_ = (plaintext.drop s).take (e_ + 1 - s)) ∧
    (parse_range_header hdr plaintext.length = none →
       handle_htree_request (Except.ok plaintext) fileSize readFileRange
           ⟨hsh, some k⟩ contentType (some hdr) =
         Except.ok
           { status := 200
             contentType := contentType
             contentLength := plaintext.length
             contentRange := none
             acceptRanges := true
             body := plaintext }) := by
  constructor
  · intro s e_ hp
    have hb := parse_range_header_bounds hdr plaintext.length s e_ hp
    have hlen : (sliceRange plaintext s e_).length = e_ - s + 1 := by
      rw [sliceRange, List.length_take, List.length_drop]
      omega
    refine ⟨?_, hlen, rfl⟩
    simp [handle_htree_request, read_range_or_full, hp, build_htree_response, hlen]
  · intro hp
    simp [handle_htree_request, read_range_or_full, hp, build_htree_response]

/-- Witness for C4 at concrete inputs: a five-byte encrypted file with the
range bytes one to three yields a 206 with the three middle bytes and the
matching Content-Range header. -/
theorem encrypted_range_slices_plaintext_witness :
    handle_htree_request (Except.ok [10, 11, 12, 13, 14]) (Except.ok 5)
        (fun _ _ => Except.error ("unused")) ⟨1, some 7⟩ ("video/mp4")
        (some ("bytes=1-3")) =
      Except.ok
        { status := 206
          contentType := "video/mp4"
          contentLength := 3
          contentRange := some ("bytes 1-3/5")
          acceptRanges := true
          body := [11, 12, 13] } := by
  have h := ((encrypted_range_slices_plaintext [10, 11, 12, 13, 14] (Except.ok 5)
    (fun _ _ => Except.error ("unused")) 1 7 ("video/mp4") ("bytes=1-3")).1
    1 3 (by decide)).1
  exact h.trans (congrArg Except.ok (by decide))

/-- C6: a NIP-07 POST with a valid session token for its origin whose
signEvent capability has a stored denied decision yields HTTP status 200,
not 403; the JSON error field is set to Permission denied, the result field
is absent, and no event is signed. -/
theorem nip07_denied_structured_error (token : String)
    (validateToken : String → String → Bool) (perms : PermissionCache)
    (pubkey keys : Option String)
    (signEventFn : String → SignEventParams → Except String String)
    (params : Nip07Params) (origin : String)
    (hv : validateToken origin token = true)
    (hd : is_granted perms origin PermissionType.signEvent = some false) :
    handle_nip07_http (some token) validateToken true perms pubkey keys
        signEventFn ("signEvent") params origin =
      ⟨200, ⟨none, some ("Permission denied")⟩, false⟩ := by
  simp [handle_nip07_http, hv, handle_nip07_request, hd]

/-- Witness for C6 at concrete inputs: origin app with a stored denial for
SignEvent, valid token, a well-formed event and working keys; the reply is
a 200 with the structured Permission denied error and no signing. -/
theorem nip07_denied_structured_error_witness :
    handle_nip07_http (some ("tok")) (fun _ _ => true)
        true [("app", [(PermissionType.signEvent, false)])] (some ("pk"))
        (some ("sk")) (fun _ _ => Except.ok ("signed"))
        ("signEvent") ⟨some ⟨some 1, "hello", none, []⟩⟩ ("app") =
      ⟨200, ⟨none, some ("Permission denied")⟩, false⟩ := by
  exact nip07_denied_structured_error ("tok") (fun _ _ => true)
    [("app", [(PermissionType.signEvent, false)])] (some ("pk")) (some ("sk"))
    (fun _ _ => Except.ok ("signed")) ⟨some ⟨some 1, "hello", none, []⟩⟩
    ("app") rfl (by decide)

/-- Helper: the probe loop with its in-loop metadata skip equals the plain
probe over the metadata-filtered list. -/
theorem probe_subdirs_filter
    (listDir : Nat → Option Nat → Except String (List DirEntry))
    (dirPath : String) (l : List DirEntry) :
    probe_subdirs listDir dirPath l =
      probe_list listDir dirPath
        (l.filter (fun e => !(is_metadata_filename e.name))) := by
  induction l with
  | nil => rfl
  | cons entry rest ih =>
    cases hm : is_metadata_filename entry.name with
    | true =>
      simp only [probe_subdirs, hm, if_true, List.filter_cons, Bool.not_true,
        Bool.false_eq_true, if_false]
      exact ih
    | false =>
      simp only [probe_subdirs, hm, Bool.false_eq_true, if_false,
        List.filter_cons, Bool.not_false, if_true, probe_list]
      cases hld : listDir entry.hash entry.key with
      | error e => simpa using ih
      | ok subEntries =>
        cases hfp : find_pattern subEntries with
        | some pat => simp [hfp]
        | none =>
          simp only [hfp]
          exact ih

/-- C5 counterexample: the claim as stated is false on the concrete fixture.
The directory contains the entries a.json, b, c, d, no top-level thumbnail
and no video; d holds a thumbnail.  The code takes the three
alphabetically-earliest entries a.json, b, c, skips a.json inside the loop,
and never reaches d, returning none; the claim version, where metadata
entries do not consume probe slots, probes b, c, d and finds the thumbnail
in d. -/
theorem find_thumbnail_metadata_slots_counterexample :
    find_thumbnail_in_dir thumbDemoDir ⟨0, none⟩ ("") = Except.ok none ∧
    find_thumbnail_in_dir_claim thumbDemoDir ⟨0, none⟩ ("") =
      Except.ok (some ("d/thumbnail.jpg")) := by
  exact ⟨by decide, by decide⟩

/-- C5 amended: for a thumbnail request on a directory whose listing has no
thumbnail pattern and no video file, find_thumbnail_in_dir probes, among the
three alphabetically-earliest entries of the directory, exactly those that
are not metadata entries (metadata entries among the first three are skipped
but still consume probe slots), searching each probed entry as a
subdirectory for the thumbnail patterns and returning the path of the first
match. -/
theorem find_thumbnail_probe_amended
    (listDir : Nat → Option Nat → Except String (List DirEntry))
    (dirCid : Cid) (dirPath : String) (entries : List DirEntry)
    (hls : listDir dirCid.hash dirCid.key = Except.ok entries)
    (hpat : find_pattern entries = none)
    (hvid : entries.any (fun e => is_video_filename e.name) = false)
    (hne : entries.isEmpty = false) :
    find_thumbnail_in_dir listDir dirCid dirPath =
      Except.ok (probe_list listDir dirPath
        (((sort_by_name entries).take 3).filter
          (fun e => !(is_metadata_filename e.name)))) := by
  simp [find_thumbnail_in_dir, hls, hpat, hvid, hne, probe_subdirs_filter]

/-- Witness for the amended C5 on the concrete fixture: the code result is
the plain probe of the non-metadata entries among the first three. -/
theorem find_thumbnail_probe_amended_witness :
    find_thumbnail_in_dir thumbDemoDir ⟨0, none⟩ ("") =
      Except.ok (probe_list thumbDemoDir ("")
        (((sort_by_name [⟨"a.json", 1, none⟩, ⟨"b", 2, none⟩, ⟨"c", 3, none⟩,
            ⟨"d", 4, none⟩]).take 3).filter
          (fun e => !(is_metadata_filename e.name)))) := by
  exact find_thumbnail_probe_amended thumbDemoDir ⟨0, none⟩ ("")
    [⟨"a.json", 1, none⟩, ⟨"b", 2, none⟩, ⟨"c", 3, none⟩, ⟨"d", 4, none⟩]
    (by decide) (by decide) (by decide) (by decide)

/-- Helper: updating one registry key leaves lookups of other keys
unchanged. -/
theorem update_subscription_lookup_ne (subs : List (String × ActiveSubscription))
    (k j : String) (f : ActiveSubscription → ActiveSubscription) (h : j ≠ k) :
    (update_subscription subs k f).lookup j = subs.lookup j := by
  induction subs with
  | nil => rfl
  | cons p rest ih =>
    simp only [update_subscription, List.map_cons]
    by_cases hp : (p.1 == k) = true
    · have hjp : (j == p.1) = false := by
        rw [beq_eq_false_iff_ne]
        intro hje
        exact h (hje.trans (eq_of_beq hp))
      rw [if_pos hp, List.lookup, List.lookup, hjp]
      exact ih
    · rw [if_neg hp, List.lookup, List.lookup]
      cases hj : (j == p.1) with
      | true => rfl
      | false => exact ih

/-- Helper: updating a registry key maps the looked-up value. -/
theorem update_subscription_lookup_eq (subs : List (String × ActiveSubscription))
    (k : String) (f : ActiveSubscription → ActiveSubscription) :
    (update_subscription subs k f).lookup k = (subs.lookup k).map f := by
  induction subs with
  | nil => rfl
  | cons p rest ih =>
    simp only [update_subscription, List.map_cons]
    by_cases hp : (p.1 == k) = true
    · have hkp : (k == p.1) = true := by
        rw [beq_iff_eq] at hp ⊢
        exact hp.symm
      rw [if_pos hp, List.lookup, List.lookup, hkp]
      rfl
    · have hkp : (k == p.1) = false := by
        rw [beq_eq_false_iff_ne]
        intro hke
        exact hp (by rw [beq_iff_eq]; exact hke.symm)
      rw [if_neg hp, List.lookup, List.lookup, hkp]
      exact ih

/-- Helper: a retry round appends exactly the processed item ids to the
issued list. -/
theorem retry_fold_snd (client : String → List Nat → Except String (List String))
    (items : List (String × List Nat × String))
    (acc : List (String × ActiveSubscription) × List String) :
    (items.foldl (retry_step client) acc).2 = acc.2 ++ items.map Prod.fst := by
  induction items generalizing acc with
  | nil => simp
  | cons i is ih =>
    rw [List.foldl_cons, ih]
    cases hc : client i.2.2 i.2.1 with
    | ok urls => simp [retry_step, hc]
    | error e => simp [retry_step, hc]

/-- Helper: the retry fold leaves entries outside the item list untouched. -/
theorem retry_fold_lookup_notmem
    (client : String → List Nat → Except String (List String))
    (items : List (String × List Nat × String))
    (acc : List (String × ActiveSubscription) × List String) (j : String)
    (hj : j ∉ items.map Prod.fst) :
    ((items.foldl (retry_step client) acc).1).lookup j = acc.1.lookup j := by
  revert hj
  induction items generalizing acc with
  | nil =>
    intro hj
    rfl
  | cons i is ih =>
    intro hj
    have hj1 : j ≠ i.1 := fun hh =>
      hj (by rw [List.map_cons]; exact List.mem_cons.mpr (Or.inl hh))
    have hjs : j ∉ is.map Prod.fst := fun hh =>
      hj (by rw [List.map_cons]; exact List.mem_cons.mpr (Or.inr hh))
    rw [List.foldl_cons, ih (retry_step client acc i) hjs]
    cases hc : client i.2.2 i.2.1 with
    | ok urls => simp [retry_step, hc, update_subscription_lookup_ne _ _ _ _ hj1]
    | error e => simp [retry_step, hc]

/-- Helper: the retry fold rewrites the entry of an item exactly according
to the outcome of its re-issue. -/
theorem retry_fold_lookup_mem
    (client : String → List Nat → Except String (List String))
    (items : List (String × List Nat × String))
    (acc : List (String × ActiveSubscription) × List String) (j : String)
    (fl : List Nat) (sd : String) (hnd : (items.map Prod.fst).Nodup)
    (hm : (j, fl, sd) ∈ items) :
    ((items.foldl (retry_step client) acc).1).lookup j =
      (match client sd fl with
       | Except.ok urls =>
         (acc.1.lookup j).map (fun a => { a with sdkId := some sd, sentTo := urls })
       | Except.error _ => acc.1.lookup j) := by
  revert hnd hm
  induction items generalizing acc with
  | nil =>
    intro hnd hm
    exact absurd hm (by simp)
  | cons i is ih =>
    intro hnd hm
    rw [List.foldl_cons]
    rcases List.mem_cons.mp hm with heq | hmem
    · subst heq
      have hj : j ∉ is.map Prod.fst := by
        simpa using (List.nodup_cons.mp hnd).1
      rw [retry_fold_lookup_notmem client is _ j hj]
      cases hc : client sd fl with
      | ok urls => simp [retry_step, hc, update_subscription_lookup_eq]
      | error e => simp [retry_step, hc]
    · have hij : j ≠ i.1 := by
        intro hje
        have hjm : j ∈ is.map Prod.fst := by
          simpa using List.mem_map_of_mem Prod.fst hmem
        rw [hje] at hjm
        exact (List.nodup_cons.mp hnd).1 hjm
      have hstep : ((retry_step client acc i).1).lookup j = acc.1.lookup j := by
        cases hc : client i.2.2 i.2.1 with
        | ok urls => simp [retry_step, hc, update_subscription_lookup_ne _ _ _ _ hij]
        | error e => simp [retry_step, hc]
      rw [ih (retry_step client acc i) (List.nodup_cons.mp hnd).2 hmem, hstep]

/-- C9: one retry round re-issues exactly those registered subscriptions
whose sent_to set is empty.  A subscription already recorded as accepted by
at least one relay is neither re-issued nor modified; a pending subscription
is re-issued, and on success the set of relay URLs that accepted it becomes
its new sent_to (so an empty success set leaves it pending for the next
round), while a failed re-issue leaves it unchanged. -/
theorem retry_pending_exactly_empty
    (clientSubscribe : String → List Nat → Except String (List String))
    (subs : List (String × ActiveSubscription)) (subId : String)
    (a : ActiveSubscription) (hnd : (subs.map Prod.fst).Nodup)
    (ha : subs.lookup subId = some a) :
    (a.sentTo ≠ [] →
       (retry_pending_subscriptions clientSubscribe subs).1.lookup subId = some a ∧
       subId ∉ (retry_pending_subscriptions clientSubscribe subs).2) ∧
    (a.sentTo = [] →
       subId ∈ (retry_pending_subscriptions clientSubscribe subs).2 ∧
       (∀ urls, clientSubscribe (a.sdkId.getD subId) a.filters = Except.ok urls →
          (retry_pending_subscriptions clientSubscribe subs).1.lookup subId =
            some { a with sdkId := some (a.sdkId.getD subId), sentTo := urls }) ∧
       (∀ e, clientSubscribe (a.sdkId.getD subId) a.filters = Except.error e →
          (retry_pending_subscriptions clientSubscribe subs).1.lookup subId = some a)) := by
  have hpkeys : (((subs.filter (fun p => p.2.sentTo.isEmpty)).map
      (fun p => (p.1, p.2.filters, p.2.sdkId.getD p.1))).map Prod.fst) =
      (subs.filter (fun p => p.2.sentTo.isEmpty)).map Prod.fst := by
    rw [List.map_map]
    rfl
  have hpnd : ((subs.filter (fun p => p.2.sentTo.isEmpty)).map
      (fun p => (p.1, p.2.filters, p.2.sdkId.getD p.1))).map Prod.fst |>.Nodup := by
    rw [hpkeys]
    exact hnd.sublist ((List.filter_sublist subs).map Prod.fst)
  have hsnd : (retry_pending_subscriptions clientSubscribe subs).2 =
      (subs.filter (fun p => p.2.sentTo.isEmpty)).map Prod.fst := by
    simp only [retry_pending_subscriptions]
    rw [retry_fold_snd, hpkeys]
    rfl
  constructor
  · intro hne
    have hnotp : subId ∉ (subs.filter (fun p => p.2.sentTo.isEmpty)).map Prod.fst := by
      intro hmem
      obtain ⟨p, hpmem, hpeq⟩ := List.mem_map.mp hmem
      have hpf := List.mem_filter.mp hpmem
      have hplk : subs.lookup subId = some p.2 := by
        apply mem_lookup_of_nodup hnd
        have : (p.1, p.2) ∈ subs := by
          simpa using hpf.1
        rw [hpeq] at this
        exact this
      rw [ha, Option.some_inj] at hplk
      have hpemp : p.2.sentTo.isEmpty = true := hpf.2
      rw [← hplk] at hpemp
      rw [List.isEmpty_iff] at hpemp
      exact hne hpemp
    constructor
    · simp only [retry_pending_subscriptions]
      rw [retry_fold_lookup_notmem]
      · exact ha
      · rw [hpkeys]
        exact hnotp
    · rw [hsnd]
      exact hnotp
  · intro hemp
    have hpmem : (subId, a.filters, a.sdkId.getD subId) ∈
        (subs.filter (fun p => p.2.sentTo.isEmpty)).map
          (fun p => (p.1, p.2.filters, p.2.sdkId.getD p.1)) := by
      apply List.mem_map.mpr
      refine ⟨(subId, a), ?_, rfl⟩
      apply List.mem_filter.mpr
      exact ⟨lookup_mem ha, by simp [hemp]⟩
    refine ⟨?_, ?_, ?_⟩
    · rw [hsnd]
      exact List.mem_map.mpr ⟨(subId, a),
        List.mem_filter.mpr ⟨lookup_mem ha, by simp [hemp]⟩, rfl⟩
    · intro urls hok
      simp only [retry_pending_subscriptions]
      rw [retry_fold_lookup_mem clientSubscribe _ _ subId a.filters
        (a.sdkId.getD subId) hpnd hpmem, hok]
      simp [ha]
    · intro e herr
      simp only [retry_pending_subscriptions]
      rw [retry_fold_lookup_mem clientSubscribe _ _ subId a.filters
        (a.sdkId.getD subId) hpnd hpmem, herr]
      exact ha

/-- Witness for C9 on the concrete fixtures: the pending subscription s1 is
re-issued and records the accepting relay, while s2, already accepted by a
relay, is neither re-issued nor modified. -/
theorem retry_pending_exactly_empty_witness :
    (retry_pending_subscriptions retryDemoClient retryDemoSubs).1.lookup ("s1") =
      some ⟨[1], some ("s1"), ["wss://a"]⟩ ∧
    (retry_pending_subscriptions retryDemoClient retryDemoSubs).1.lookup ("s2") =
      some ⟨[2], some ("x"), ["wss://r"]⟩ ∧
    ("s2") ∉ (retry_pending_subscriptions retryDemoClient retryDemoSubs).2 ∧
    ("s1") ∈ (retry_pending_subscriptions retryDemoClient retryDemoSubs).2 := by
  have h1 := retry_pending_exactly_empty retryDemoClient retryDemoSubs ("s1")
    ⟨[1], none, []⟩ (by decide) (by decide)
  have h2 := retry_pending_exactly_empty retryDemoClient retryDemoSubs ("s2")
    ⟨[2], some ("x"), ["wss://r"]⟩ (by decide) (by decide)
  refine ⟨(h1.2 rfl).2.1 ["wss://a"] (by decide), ?_, ?_, (h1.2 rfl).1⟩
  · exact (h2.1 (by decide)).1
  · exact (h2.1 (by decide)).2

/-- Helper: stable insertion permutes to a cons. -/
theorem insertByLe_perm {α : Type} (le : α → α → Bool) (a : α) (l : List α) :
    (insertByLe le a l).Perm (a :: l) := by
  induction l with
  | nil => exact List.Perm.refl _
  | cons b bs ih =>
    rw [insertByLe]
    by_cases h : (le b a && !(le a b)) = true
    · rw [if_pos h]
      exact (ih.cons b).trans (List.Perm.swap a b bs)
    · rw [if_neg h]

/-- Helper: stable insertion preserves sortedness for a total transitive
Boolean order. -/
theorem insertByLe_pairwise {α : Type} (le : α → α → Bool)
    (htot : ∀ x y, le x y = true ∨ le y x = true)
    (htrans : ∀ x y z, le x y = true → le y z = true → le x z = true)
    (a : α) (l : List α) (hl : l.Pairwise (fun x y => le x y = true)) :
    (insertByLe le a l).Pairwise (fun x y => le x y = true) := by
  induction l with
  | nil => simp [insertByLe]
  | cons b bs ih =>
    rw [insertByLe]
    obtain ⟨hb, hbs⟩ := List.pairwise_cons.mp hl
    by_cases h : (le b a && !(le a b)) = true
    · rw [if_pos h]
      refine List.pairwise_cons.mpr ⟨?_, ih hbs⟩
      intro x hx
      have hmem : x ∈ a :: bs := (insertByLe_perm le a bs).mem_iff.mp hx
      rcases List.mem_cons.mp hmem with hxa | hxbs
      · rw [hxa]
        have h' := h
        rw [Bool.and_eq_true] at h'
        exact h'.1
      · exact hb x hxbs
    · rw [if_neg h]
      have hab : le a b = true := by
        rcases htot a b with h1 | h2
        · exact h1
        · by_cases hab' : le a b = true
          · exact hab'
          · exfalso
            apply h
            rw [Bool.and_eq_true]
            refine ⟨h2, ?_⟩
            rw [Bool.not_eq_true']
            exact Bool.eq_false_iff.mpr hab'
      refine List.pairwise_cons.mpr ⟨?_, hl⟩
      intro x hx
      rcases List.mem_cons.mp hx with hxb | hxbs
      · rw [hxb]
        exact hab
      · exact htrans a b x hab (hb x hxbs)

/-- Helper: the stable sort is a permutation of its input. -/
theorem sortByLe_perm {α : Type} (le : α → α → Bool) (l : List α) :
    (sortByLe le l).Perm l := by
  induction l with
  | nil => exact List.Perm.refl _
  | cons a as ih => exact (insertByLe_perm le a (sortByLe le as)).trans (ih.cons a)

/-- Helper: the stable sort is pairwise ordered for a total transitive
Boolean order. -/
theorem sortByLe_pairwise {α : Type} (le : α → α → Bool)
    (htot : ∀ x y, le x y = true ∨ le y x = true)
    (htrans : ∀ x y z, le x y = true → le y z = true → le x z = true)
    (l : List α) :
    (sortByLe le l).Pairwise (fun x y => le x y = true) := by
  induction l with
  | nil => simp [sortByLe]
  | cons a as ih => exact insertByLe_pairwise le htot htrans a _ ih

/-- Helper: an upsert makes the new value visible at its key. -/
theorem db_put_lookup (db : List (String × HistoryEntry)) (k : String)
    (v : HistoryEntry) : (db_put db k v).lookup k = some v := by
  induction db with
  | nil => simp [db_put, List.lookup]
  | cons p rest ih =>
    obtain ⟨k', v'⟩ := p
    rw [db_put]
    by_cases h : (k == k') = true
    · rw [if_pos h]
      simp [List.lookup]
    · rw [if_neg h, List.lookup]
      have hf : (k == k') = false := Bool.eq_false_iff.mpr h
      rw [hf]
      exact ih

/-- Helper: replacing at an existing key keeps the entry count. -/
theorem db_put_length_replace (db : List (String × HistoryEntry)) (k : String)
    (v w : HistoryEntry) (h : db.lookup k = some w) :
    (db_put db k v).length = db.length := by
  induction db with
  | nil => simp [List.lookup] at h
  | cons p rest ih =>
    obtain ⟨k', v'⟩ := p
    rw [db_put]
    by_cases hk : (k == k') = true
    · rw [if_pos hk]
      simp
    · rw [if_neg hk]
      rw [List.lookup] at h
      have hf : (k == k') = false := Bool.eq_false_iff.mpr hk
      rw [hf] at h
      simp [ih h]

/-- Helper: inserting at a fresh key appends the entry. -/
theorem db_put_append (db : List (String × HistoryEntry)) (k : String)
    (v : HistoryEntry) (h : db.lookup k = none) :
    db_put db k v = db ++ [(k, v)] := by
  induction db with
  | nil => rfl
  | cons p rest ih =>
    obtain ⟨k', v'⟩ := p
    rw [List.lookup] at h
    by_cases hk : (k == k') = true
    · rw [hk] at h
      exact absurd h (by simp)
    · have hf : (k == k') = false := Bool.eq_false_iff.mpr hk
      rw [hf] at h
      rw [db_put, if_neg hk, ih h]
      rfl

/-- Helper: deleting an absent key is the identity. -/
theorem filter_ne_of_not_mem (db : List (String × HistoryEntry)) (k : String)
    (h : k ∉ db.map Prod.fst) : db.filter (fun p => !(p.1 == k)) = db := by
  induction db with
  | nil => rfl
  | cons p rest ih =>
    have hk : (p.1 == k) = false := by
      rw [beq_eq_false_iff_ne]
      intro he
      exact h (by rw [List.map_cons, ← he]; exact List.mem_cons_self _ _)
    have h2 : k ∉ rest.map Prod.fst := fun hh =>
      h (by rw [List.map_cons]; exact List.mem_cons_of_mem _ hh)
    simp [List.filter_cons, hk, ih h2]

/-- Helper: deleting a present key from a duplicate-free database removes
exactly one entry. -/
theorem delete_key_length (db : List (String × HistoryEntry)) (k : String)
    (hnd : (db.map Prod.fst).Nodup) (hk : k ∈ db.map Prod.fst) :
    (db.filter (fun p => !(p.1 == k))).length = db.length - 1 := by
  induction db with
  | nil => simp at hk
  | cons p rest ih =>
    rw [List.map_cons] at hk hnd
    rcases List.mem_cons.mp hk with heq | hmem
    · have hpk : (p.1 == k) = true := by
        rw [beq_iff_eq]
        exact heq.symm
      have hrest : k ∉ rest.map Prod.fst := heq ▸ (List.nodup_cons.mp hnd).1
      rw [List.filter_cons]
      simp only [hpk, Bool.not_true, Bool.false_eq_true, if_false]
      rw [filter_ne_of_not_mem rest k hrest]
      simp
    · by_cases hpk : (p.1 == k) = true
      · exfalso
        have : p.1 ∈ rest.map Prod.fst := by
          rw [eq_of_beq hpk]
          exact hmem
        exact (List.nodup_cons.mp hnd).1 this
      · have hpkf : (p.1 == k) = false := Bool.eq_false_iff.mpr hpk
        rw [List.filter_cons]
        simp only [hpkf, Bool.not_false, if_true]
        have hpos : 1 ≤ rest.length := by
          rcases rest with _ | ⟨q, rest'⟩
          · simp at hmem
          · simp
        simp only [List.length_cons]
        rw [ih (List.nodup_cons.mp hnd).2 hmem]
        omega

/-- Helper: the eviction fold deletes exactly the entries whose key is a
victim. -/
theorem evict_fold_db (victims : List String) (st : HistoryStore) :
    (victims.foldl evict_step st).db =
      st.db.filter (fun p => !(victims.contains p.1)) := by
  induction victims generalizing st with
  | nil => simp
  | cons k ks ih =>
    rw [List.foldl_cons, ih]
    show (st.db.filter (fun p => !(p.1 == k))).filter
        (fun p => !(ks.contains p.1)) = _
    rw [List.filter_filter]
    apply List.filter_congr
    intro p _
    show (!(ks.contains p.1) && !(p.1 == k)) = !((k :: ks).contains p.1)
    rw [List.contains_cons, Bool.not_or]
    exact Bool.and_comm _ _

/-- Helper: the eviction fold decrements the count once per victim. -/
theorem evict_fold_count (victims : List String) (st : HistoryStore) :
    (victims.foldl evict_step st).entryCount = st.entryCount - victims.length := by
  induction victims generalizing st with
  | nil => simp
  | cons k ks ih =>
    rw [List.foldl_cons, ih]
    show st.entryCount - 1 - ks.length = _
    rw [List.length_cons]
    omega

/-- Helper: the eviction fold removes exactly one entry per distinct
present victim key. -/
theorem evict_fold_length (victims : List String) (st : HistoryStore)
    (hnd : (st.db.map Prod.fst).Nodup) (hvnd : victims.Nodup)
    (hvin : ∀ k ∈ victims, k ∈ st.db.map Prod.fst) :
    (victims.foldl evict_step st).db.length = st.db.length - victims.length := by
  induction victims generalizing st with
  | nil => simp
  | cons k ks ih =>
    rw [List.foldl_cons]
    have hk : k ∈ st.db.map Prod.fst := hvin k (List.mem_cons_self _ _)
    have hlen1 : (evict_step st k).db.length = st.db.length - 1 :=
      delete_key_length st.db k hnd hk
    have hnd1 : ((evict_step st k).db.map Prod.fst).Nodup :=
      hnd.sublist ((List.filter_sublist _).map Prod.fst)
    have hvin1 : ∀ k' ∈ ks, k' ∈ (evict_step st k).db.map Prod.fst := by
      intro k' hk'
      have hne : k' ≠ k := by
        intro he
        rw [he] at hk'
        exact (List.nodup_cons.mp hvnd).1 hk'
      obtain ⟨p, hpmem, hpeq⟩ := List.mem_map.mp (hvin k' (List.mem_cons_of_mem _ hk'))
      apply List.mem_map.mpr
      refine ⟨p, ?_, hpeq⟩
      apply List.mem_filter.mpr
      refine ⟨hpmem, ?_⟩
      simp [hpeq, hne]
    rw [ih (evict_step st k) hnd1 (List.nodup_cons.mp hvnd).2 hvin1, hlen1]
    have hpos : 1 ≤ st.db.length := by
      rcases hdb : st.db with _ | ⟨q, rest'⟩
      · rw [hdb] at hk
        simp at hk
      · simp
    rw [List.length_cons]
    omega

/-- Helper: Boolean list containment agrees with membership. -/
theorem contains_iff_mem {α : Type} [BEq α] [LawfulBEq α] {l : List α} {a : α} :
    l.contains a = true ↔ a ∈ l :=
  List.elem_iff

/-- C7: record_visit is an upsert keyed by path.  For an existing path the
database size and entry count are unchanged and the stored entry takes the
new label, a visit count exactly one higher (hence strictly increased) and
the new last_visited stamp.  For a new path when the store already holds at
least 1000 entries, the oldest tenth by last_visited, at least one entry, is
evicted before the insert: afterwards the new entry is present, the size and
count equal the old size minus max(size/10, 1) plus one, every surviving
entry was already stored, and every evicted entry's last_visited is at most
that of every survivor. -/
theorem record_visit_upsert_evict (st : HistoryStore) (e : HistoryEntry)
    (hnd : (st.db.map Prod.fst).Nodup) :
    (∀ old, st.db.lookup e.path = some old → old.path = e.path →
       (record_visit st e).db.length = st.db.length ∧
       (record_visit st e).entryCount = st.entryCount ∧
       (record_visit st e).db.lookup e.path =
         some { old with label := e.label, visitCount := old.visitCount + 1, lastVisited := e.lastVisited }) ∧
    (st.db.lookup e.path = none → st.entryCount = st.db.length →
     max_history_entries ≤ st.entryCount →
       (record_visit st e).db.length =
         st.db.length - max (st.db.length / 10) 1 + 1 ∧
       (record_visit st e).entryCount =
         st.db.length - max (st.db.length / 10) 1 + 1 ∧
       (record_visit st e).db.lookup e.path = some e ∧
       (∀ p, p ∈ (record_visit st e).db → p.1 ≠ e.path → p ∈ st.db) ∧
       (∀ q, q ∈ st.db → q.1 ∉ (record_visit st e).db.map Prod.fst →
          ∀ p, p ∈ (record_visit st e).db → p.1 ≠ e.path →
            q.2.lastVisited ≤ p.2.lastVisited)) := by
  constructor
  · intro old ho hp
    have hrv : record_visit st e =
        { st with db := db_put st.db e.path { old with label := e.label, visitCount := old.visitCount + 1, lastVisited := e.lastVisited } } := by
      simp only [record_visit, ho]
      rw [hp]
    rw [hrv]
    exact ⟨db_put_length_replace st.db e.path _ old ho, rfl, db_put_lookup _ _ _⟩
  · intro hno hcnt hcap
    set kk := max (st.db.length / 10) 1 with hkk
    set entries := st.db.map (fun p => (p.1, p.2.lastVisited)) with hentries
    set sorted :=
      sortByLe (fun a b : String × Nat => decide (a.2 ≤ b.2)) entries with hsorted
    set victims := (sorted.take kk).map Prod.fst with hvictims
    have hev : evict_oldest st = victims.foldl evict_step st := by
      rw [hvictims, hsorted, hentries, hkk]
      simp only [evict_oldest, List.length_map]
    have hsperm : sorted.Perm entries := by
      rw [hsorted]
      exact sortByLe_perm _ _
    have hslen : sorted.length = st.db.length := by
      rw [hsperm.length_eq, hentries, List.length_map]
    have hn1 : 1 ≤ st.db.length := by
      have hx := hcap
      rw [hcnt] at hx
      simp only [max_history_entries] at hx
      omega
    have hkle : kk ≤ st.db.length := by
      rw [hkk]
      exact max_le (Nat.div_le_self _ _) hn1
    have hkeys_eq : entries.map Prod.fst = st.db.map Prod.fst := by
      rw [hentries, List.map_map]
      rfl
    have hsortkeys : (sorted.map Prod.fst).Nodup := by
      have hp : (sorted.map Prod.fst).Perm (st.db.map Prod.fst) := by
        rw [← hkeys_eq]
        exact hsperm.map _
      exact hp.nodup_iff.mpr hnd
    have hvnodup : victims.Nodup := by
      rw [hvictims, List.map_take]
      exact hsortkeys.sublist (List.take_sublist _ _)
    have hvin : ∀ x ∈ victims, x ∈ st.db.map Prod.fst := by
      intro x hx
      rw [hvictims] at hx
      obtain ⟨pr, hpr, hpr1⟩ := List.mem_map.mp hx
      have hpr2 : pr ∈ sorted := List.mem_of_mem_take hpr
      have hpr3 : pr ∈ entries := hsperm.mem_iff.mp hpr2
      rw [hentries] at hpr3
      obtain ⟨p, hpmem, hpe⟩ := List.mem_map.mp hpr3
      rw [← hpr1, ← hpe]
      exact List.mem_map_of_mem Prod.fst hpmem
    have hvlen : victims.length = kk := by
      rw [hvictims, List.length_map, List.length_take, hslen]
      exact min_eq_left hkle
    have hevdb : (evict_oldest st).db =
        st.db.filter (fun p => !(victims.contains p.1)) := by
      rw [hev]
      exact evict_fold_db victims st
    have hevlen : (evict_oldest st).db.length = st.db.length - kk := by
      rw [hev, evict_fold_length victims st hnd hvnodup hvin, hvlen]
    have hevcnt : (evict_oldest st).entryCount = st.db.length - kk := by
      rw [hev, evict_fold_count, hvlen, hcnt]
    have hpath_notin : e.path ∉ st.db.map Prod.fst := by
      intro hmem
      obtain ⟨p, hpmem, hpeq⟩ := List.mem_map.mp hmem
      rw [List.lookup_eq_none_iff] at hno
      have hbne := hno p hpmem
      rw [bne_iff_ne] at hbne
      exact hbne hpeq.symm
    have hevlookup : (evict_oldest st).db.lookup e.path = none := by
      rw [List.lookup_eq_none_iff]
      intro p hp
      rw [hevdb] at hp
      have hp2 := (List.mem_filter.mp hp).1
      rw [bne_iff_ne]
      intro he
      exact hpath_notin (by rw [he]; exact List.mem_map_of_mem Prod.fst hp2)
    have hrv : record_visit st e =
        { db := db_put (evict_oldest st).db e.path e,
          entryCount := (evict_oldest st).entryCount + 1 } := by
      simp only [record_visit, hno]
      rw [if_pos hcap]
    have hdbput : db_put (evict_oldest st).db e.path e =
        (evict_oldest st).db ++ [(e.path, e)] :=
      db_put_append _ _ _ hevlookup
    refine ⟨?_, ?_, ?_, ?_, ?_⟩
    · rw [hrv]
      show (db_put (evict_oldest st).db e.path e).length = _
      rw [hdbput, List.length_append, hevlen]
      rfl
    · rw [hrv]
      show (evict_oldest st).entryCount + 1 = _
      rw [hevcnt]
    · rw [hrv]
      exact db_put_lookup _ _ _
    · intro p hp hpne
      rw [hrv] at hp
      have hp' : p ∈ (evict_oldest st).db ++ [(e.path, e)] := by
        rw [← hdbput]
        exact hp
      rcases List.mem_append.mp hp' with h1 | h2
      · rw [hevdb] at h1
        exact (List.mem_filter.mp h1).1
      · exfalso
        have : p = (e.path, e) := by simpa using h2
        exact hpne (by rw [this])
    · intro q hq hqnot p hp hpne
      rw [hrv] at hqnot hp
      have hqnot' : q.1 ∉ ((evict_oldest st).db ++ [(e.path, e)]).map Prod.fst := by
        rw [← hdbput]
        exact hqnot
      rw [List.map_append] at hqnot'
      have hqnotev : q.1 ∉ (evict_oldest st).db.map Prod.fst := fun hh =>
        hqnot' (List.mem_append.mpr (Or.inl hh))
      have hqvict : q.1 ∈ victims := by
        by_contra hqv
        apply hqnotev
        have hqev : q ∈ (evict_oldest st).db := by
          rw [hevdb]
          apply List.mem_filter.mpr
          refine ⟨hq, ?_⟩
          have : victims.contains q.1 = false := by
            rcases hc : victims.contains q.1 with _ | _
            · rfl
            · exact absurd (contains_iff_mem.mp hc) hqv
          rw [this]
          rfl
        exact List.mem_map_of_mem Prod.fst hqev
      have hp' : p ∈ (evict_oldest st).db ++ [(e.path, e)] := by
        rw [← hdbput]
        exact hp
      have hpev : p ∈ (evict_oldest st).db := by
        rcases List.mem_append.mp hp' with h1 | h2
        · exact h1
        · exfalso
          have : p = (e.path, e) := by simpa using h2
          exact hpne (by rw [this])
      have hpfilter := List.mem_filter.mp (by rw [← hevdb]; exact hpev)
      have hpvict : p.1 ∉ victims := by
        intro hpv
        have hcv : victims.contains p.1 = true := contains_iff_mem.mpr hpv
        have := hpfilter.2
        rw [hcv] at this
        exact absurd this (by simp)
      have hpst : p ∈ st.db := hpfilter.1
      have hqe : (q.1, q.2.lastVisited) ∈ sorted := by
        apply hsperm.mem_iff.mpr
        rw [hentries]
        exact List.mem_map_of_mem _ hq
      have hpe : (p.1, p.2.lastVisited) ∈ sorted := by
        apply hsperm.mem_iff.mpr
        rw [hentries]
        exact List.mem_map_of_mem _ hpst
      have hsplit : sorted.take kk ++ sorted.drop kk = sorted :=
        List.take_append_drop kk sorted
      have hdisj : (sorted.take kk |>.map Prod.fst).Disjoint
          (sorted.drop kk |>.map Prod.fst) := by
        have hnd2 : ((sorted.take kk |>.map Prod.fst) ++
            (sorted.drop kk |>.map Prod.fst)).Nodup := by
          rw [← List.map_append, hsplit]
          exact hsortkeys
        exact (List.nodup_append.mp hnd2).2.2
      have hqtake : (q.1, q.2.lastVisited) ∈ sorted.take kk := by
        have := hqe
        rw [← hsplit] at this
        rcases List.mem_append.mp this with h1 | h2
        · exact h1
        · exfalso
          have hq1 : q.1 ∈ (sorted.take kk).map Prod.fst := by
            rw [hvictims] at hqvict
            exact hqvict
          have hq2 : q.1 ∈ (sorted.drop kk).map Prod.fst :=
            List.mem_map_of_mem Prod.fst h2
          exact hdisj hq1 hq2
      have hpdrop : (p.1, p.2.lastVisited) ∈ sorted.drop kk := by
        have := hpe
        rw [← hsplit] at this
        rcases List.mem_append.mp this with h1 | h2
        · exfalso
          apply hpvict
          rw [hvictims]
          exact List.mem_map_of_mem Prod.fst h1
        · exact h2
      have hpw : sorted.Pairwise
          (fun x y : String × Nat => decide (x.2 ≤ y.2) = true) := by
        rw [hsorted]
        apply sortByLe_pairwise
        · intro x y
          rcases Nat.le_total x.2 y.2 with h | h
          · exact Or.inl (decide_eq_true h)
          · exact Or.inr (decide_eq_true h)
        · intro x y z hxy hyz
          exact decide_eq_true (Nat.le_trans (of_decide_eq_true hxy) (of_decide_eq_true hyz))
      have hpw2 := hpw
      rw [← hsplit] at hpw2
      have hle := (List.pairwise_append.mp hpw2).2.2 _ hqtake _ hpdrop
      exact of_decide_eq_true hle

/-- Witness for C7 at concrete inputs: re-visiting a stored path keeps one
entry and bumps its visit count from 3 to 4 with the new label and stamp. -/
theorem record_visit_upsert_evict_witness :
    (record_visit ⟨[(("p"), ⟨"p", "Old", "tree", none, none, 3, 5, 1⟩)], 1⟩
        ⟨"p", "New", "tree", none, none, 1, 99, 99⟩).db.length = 1 ∧
    (record_visit ⟨[(("p"), ⟨"p", "Old", "tree", none, none, 3, 5, 1⟩)], 1⟩
        ⟨"p", "New", "tree", none, none, 1, 99, 99⟩).db.lookup ("p") =
      some ⟨"p", "New", "tree", none, none, 4, 99, 1⟩ := by
  have h := (record_visit_upsert_evict
    ⟨[(("p"), ⟨"p", "Old", "tree", none, none, 3, 5, 1⟩)], 1⟩
    ⟨"p", "New", "tree", none, none, 1, 99, 99⟩ (by decide)).1
    ⟨"p", "Old", "tree", none, none, 3, 5, 1⟩ (by decide) rfl
  exact ⟨h.1, h.2.2⟩

/-- Helper: a pointwise-stronger Boolean predicate filters to at most as
many elements. -/
theorem filter_length_mono {α : Type} (l : List α) (p q : α → Bool)
    (h : ∀ x ∈ l, p x = true → q x = true) :
    (l.filter p).length ≤ (l.filter q).length := by
  induction l with
  | nil => simp
  | cons x rest ih =>
    have hrest : ∀ y ∈ rest, p y = true → q y = true :=
      fun y hy => h y (List.mem_cons_of_mem _ hy)
    rw [List.filter_cons, List.filter_cons]
    cases hp : p x with
    | true =>
      have hqx := h x (List.mem_cons_self _ _) hp
      simp only [hqx, if_pos trivial, List.length_cons]
      exact Nat.succ_le_succ (ih hrest)
    | false =>
      simp only [Bool.false_eq_true, if_false]
      cases hq : q x with
      | true =>
        simp only [if_pos trivial, List.length_cons]
        exact Nat.le_succ_of_le (ih hrest)
      | false =>
        simp only [Bool.false_eq_true, if_false]
        exact ih hrest

/-- Helper: growing the visited set can only shrink the unvisited count. -/
theorem unvisited_mono (store : List (Nat × Bytes)) (v1 v2 : List Nat)
    (hsub : ∀ x ∈ v1, x ∈ v2) :
    unvisited_count store v2 ≤ unvisited_count store v1 := by
  apply filter_length_mono
  intro x _ hx
  rw [Bool.not_eq_true'] at hx ⊢
  cases hc : v1.contains x with
  | false => rfl
  | true =>
    exfalso
    have hm := contains_iff_mem.mp hc
    have h2 := contains_iff_mem.mpr (hsub x hm)
    rw [h2] at hx
    exact Bool.noConfusion hx

/-- Helper: removing a present element strictly shortens a list under the
not-equal filter. -/
theorem filter_ne_length_lt {l : List Nat} {a : Nat} (h : a ∈ l) :
    (l.filter (fun x => !(x == a))).length < l.length := by
  induction l with
  | nil => simp at h
  | cons x rest ih =>
    rw [List.filter_cons]
    by_cases hx : (x == a) = true
    · simp only [hx, Bool.not_true, Bool.false_eq_true, if_false]
      have hle := List.length_filter_le (fun x => !(x == a)) rest
      simp only [List.length_cons]
      omega
    · have hxf : (x == a) = false := Bool.eq_false_iff.mpr hx
      simp only [hxf, Bool.not_false, if_pos trivial, List.length_cons]
      have ha : a ∈ rest := by
        rcases List.mem_cons.mp h with h1 | h2
        · exfalso
          apply hx
          rw [beq_iff_eq]
          exact h1.symm
        · exact h2
      have := ih ha
      omega

/-- Helper: visiting a present, unvisited hash strictly decreases the
unvisited count. -/
theorem unvisited_decrease (store : List (Nat × Bytes)) (visited : List Nat)
    (hsh : Nat) (hin : hsh ∈ store.map Prod.fst) (hnv : hsh ∉ visited) :
    unvisited_count store (hsh :: visited) < unvisited_count store visited := by
  unfold unvisited_count
  have hfe : (store.map Prod.fst).filter (fun h => !((hsh :: visited).contains h)) =
      ((store.map Prod.fst).filter (fun h => !(visited.contains h))).filter
        (fun h => !(h == hsh)) := by
    rw [List.filter_filter]
    apply List.filter_congr
    intro x _
    simp only [List.contains_cons, Bool.not_or]
  rw [hfe]
  apply filter_ne_length_lt
  apply List.mem_filter.mpr
  refine ⟨hin, ?_⟩
  have hc : visited.contains hsh = false := by
    cases hc : visited.contains hsh with
    | false => rfl
    | true => exact absurd (contains_iff_mem.mp hc) hnv
  rw [hc]
  rfl

/-- Helper: the unvisited count of a fresh walk is the store size. -/
theorem unvisited_count_nil (store : List (Nat × Bytes)) :
    unvisited_count store [] = store.length := by
  unfold unvisited_count
  have h : (store.map Prod.fst).filter (fun h => !(([] : List Nat).contains h)) =
      store.map Prod.fst :=
    List.filter_eq_self.mpr (fun a _ => rfl)
  rw [h, List.length_map]

/-- Helper: with fuel exceeding the unvisited count, the walk returns and
preserves its invariant, grows the visited set and block list monotonically,
and never increases the unvisited count. -/
theorem walk_rec_total (store : List (Nat × Bytes))
    (decryptChk : Bytes → Nat → Option Bytes)
    (tryDecodeTreeNode : Bytes → Option TreeNodeData) :
    ∀ fuel hsh key blocks visited,
      unvisited_count store visited < fuel →
      walk_inv store blocks visited →
      ∃ b v, walk_blocks_recursive store decryptChk tryDecodeTreeNode fuel
          hsh key blocks visited = some (b, v) ∧
        walk_inv store b v ∧ (∀ x ∈ visited, x ∈ v) ∧ (∀ x ∈ blocks, x ∈ b) ∧
        unvisited_count store v ≤ unvisited_count store visited := by
  intro fuel
  induction fuel using Nat.strong_induction_on with
  | _ fuel ih =>
    intro hsh key blocks visited hmu hinv
    cases fuel with
    | zero => exact absurd hmu (Nat.not_lt_zero _)
    | succ f =>
      by_cases hv : hsh ∈ visited
      · refine ⟨blocks, visited, ?_, hinv, fun x hx => hx, fun x hx => hx, le_refl _⟩
        simp only [walk_blocks_recursive]
        rw [if_pos hv]
      · cases hlk : store.lookup hsh with
        | none =>
          refine ⟨blocks, hsh :: visited, ?_, ?_, ?_, fun x hx => hx, ?_⟩
          · simp only [walk_blocks_recursive]
            rw [if_neg hv, hlk]
          · exact ⟨fun b hb => List.mem_cons_of_mem _ (hinv.1 b hb), hinv.2.1, hinv.2.2⟩
          · intro x hx
            exact List.mem_cons_of_mem _ hx
          · exact unvisited_mono store visited (hsh :: visited)
              (fun x hx => List.mem_cons_of_mem _ hx)
        | some data =>
          have hin : hsh ∈ store.map Prod.fst :=
            List.mem_map_of_mem Prod.fst (lookup_mem hlk)
          have hdec : unvisited_count store (hsh :: visited) <
              unvisited_count store visited :=
            unvisited_decrease store visited hsh hin hv
          have hmu1 : unvisited_count store (hsh :: visited) < f := by omega
          have hinv1 : walk_inv store (blocks ++ [⟨hsh, data⟩]) (hsh :: visited) := by
            refine ⟨?_, ?_, ?_⟩
            · intro b hb
              rcases List.mem_append.mp hb with h1 | h2
              · exact List.mem_cons_of_mem _ (hinv.1 b h1)
              · have hbe : b = ⟨hsh, data⟩ := by simpa using h2
                rw [hbe]
                exact List.mem_cons_self _ _
            · rw [List.map_append, List.nodup_append]
              refine ⟨hinv.2.1, by simp, ?_⟩
              intro a ha hb2
              have hb' : a = hsh := by simpa using hb2
              obtain ⟨b, hbmem, hbh⟩ := List.mem_map.mp ha
              have hbv : b.hash ∈ visited := hinv.1 b hbmem
              rw [hbh, hb'] at hbv
              exact hv hbv
            · intro b hb
              rcases List.mem_append.mp hb with h1 | h2
              · exact hinv.2.2 b h1
              · have hbe : b = ⟨hsh, data⟩ := by simpa using h2
                rw [hbe]
                exact hlk
          have aux : ∀ (links : List TreeLink) b0 v0, walk_inv store b0 v0 →
              unvisited_count store v0 < f →
              ∃ b v, links.foldl
                  (fun acc link =>
                    match acc with
                    | none => none
                    | some (bb, vv) =>
                      walk_blocks_recursive store decryptChk tryDecodeTreeNode f
                        link.hash link.key bb vv)
                  (some (b0, v0)) = some (b, v) ∧
                walk_inv store b v ∧ (∀ x ∈ v0, x ∈ v) ∧ (∀ x ∈ b0, x ∈ b) ∧
                unvisited_count store v ≤ unvisited_count store v0 := by
            intro links
            induction links with
            | nil =>
              intro b0 v0 hinv0 hmu0
              exact ⟨b0, v0, rfl, hinv0, fun x hx => hx, fun x hx => hx, le_refl _⟩
            | cons l ls ihl =>
              intro b0 v0 hinv0 hmu0
              obtain ⟨b1, v1, heq1, hinv1', hsub1, hblk1, hmu1'⟩ :=
                ih f (Nat.lt_succ_self f) l.hash l.key b0 v0 hmu0 hinv0
              obtain ⟨b2, v2, heq2, hinv2, hsub2, hblk2, hmu2⟩ :=
                ihl b1 v1 hinv1' (lt_of_le_of_lt hmu1' hmu0)
              refine ⟨b2, v2, ?_, hinv2, fun x hx => hsub2 x (hsub1 x hx),
                fun x hx => hblk2 x (hblk1 x hx), le_trans hmu2 hmu1'⟩
              rw [List.foldl_cons]
              show List.foldl _ (walk_blocks_recursive store decryptChk
                  tryDecodeTreeNode f l.hash l.key b0 v0) ls = some (b2, v2)
              rw [heq1]
              exact heq2
          obtain ⟨b, v, heqf, hinvf, hsubf, hblkf, hmuf⟩ :=
            aux (walk_links decryptChk tryDecodeTreeNode data key)
              (blocks ++ [⟨hsh, data⟩]) (hsh :: visited) hinv1 hmu1
          refine ⟨b, v, ?_, hinvf, ?_, ?_, ?_⟩
          · simp only [walk_blocks_recursive]
            rw [if_neg hv, hlk]
            exact heqf
          · intro x hx
            exact hsubf x (List.mem_cons_of_mem _ hx)
          · intro x hx
            exact hblkf x (List.mem_append.mpr (Or.inl hx))
          · exact le_trans hmuf (le_of_lt hdec)

/-- C10: for every CID, walk_blocks terminates even on shared or cyclic
DAGs (the fuel one past the store size never runs out), returns each block
hash at most once, returns only blocks whose data is exactly the stored
bytes of their hash (blocks absent from the local store are skipped
silently and the walk still succeeds, as the root case states explicitly),
and descends into children only when the bytes, CHK-decrypted when a key is
present, decode as a tree node: a root whose bytes do not yield links
produces exactly the one root block. -/
theorem walk_blocks_props (store : List (Nat × Bytes))
    (decryptChk : Bytes → Nat → Option Bytes)
    (tryDecodeTreeNode : Bytes → Option TreeNodeData) (cid : Cid) :
    ∃ blocks, walk_blocks store decryptChk tryDecodeTreeNode cid = some blocks ∧
      (blocks.map (fun b => b.hash)).Nodup ∧
      (∀ b ∈ blocks, store.lookup b.hash = some b.data) ∧
      (store.lookup cid.hash = none → blocks = []) ∧
      (∀ data, store.lookup cid.hash = some data →
         walk_links decryptChk tryDecodeTreeNode data cid.key = [] →
         blocks = [⟨cid.hash, data⟩]) := by
  obtain ⟨b, v, heq, hinv, _, _, _⟩ := walk_rec_total store decryptChk
    tryDecodeTreeNode (store.length + 1) cid.hash cid.key [] []
    (by rw [unvisited_count_nil]; omega)
    ⟨by simp, by simp, by simp⟩
  refine ⟨b, ?_, hinv.2.1, hinv.2.2, ?_, ?_⟩
  · simp only [walk_blocks, heq]
  · intro hlk
    have hcomp : walk_blocks_recursive store decryptChk tryDecodeTreeNode
        (store.length + 1) cid.hash cid.key [] [] = some ([], [cid.hash]) := by
      simp only [walk_blocks_recursive]
      rw [if_neg (List.not_mem_nil _), hlk]
    rw [hcomp] at heq
    injection heq with h3
    injection h3 with h4 h5
    exact h4.symm
  · intro data hdata hlinks
    have hcomp : walk_blocks_recursive store decryptChk tryDecodeTreeNode
        (store.length + 1) cid.hash cid.key [] [] =
        some ([⟨cid.hash, data⟩], [cid.hash]) := by
      simp only [walk_blocks_recursive]
      rw [if_neg (List.not_mem_nil _), hdata]
      show List.foldl _
          (some ([] ++ [(⟨cid.hash, data⟩ : WalkBlock)], [cid.hash]))
          (walk_links decryptChk tryDecodeTreeNode data cid.key) =
        some ([(⟨cid.hash, data⟩ : WalkBlock)], [cid.hash])
      rw [hlinks]
      rfl
    rw [hcomp] at heq
    injection heq with h3
    injection h3 with h4 h5
    exact h4.symm

/-- Witness for C10 on the cyclic fixture: block 1 links to block 2 which
links back to block 1, and the walk terminates with each block exactly
once. -/
theorem walk_blocks_props_witness :
    walk_blocks walkDemoStore (fun _ _ => none) walkDemoDecode ⟨1, none⟩ =
      some [⟨1, [0]⟩, ⟨2, [1]⟩] ∧
    ∃ blocks, walk_blocks walkDemoStore (fun _ _ => none) walkDemoDecode
        ⟨1, none⟩ = some blocks ∧ (blocks.map (fun b => b.hash)).Nodup := by
  refine ⟨by decide, ?_⟩
  obtain ⟨blocks, h1, h2, _⟩ := walk_blocks_props walkDemoStore
    (fun _ _ => none) walkDemoDecode ⟨1, none⟩
  exact ⟨blocks, h1, h2⟩

/-- Helper: the claim's per-match increment equals the code's, given that
the carried previous character is none exactly at target index 0. -/
theorem match_score_eq (tIdx : Nat) (prevChar : Option Char)
    (pm : Option Nat) (score : ℚ) (hinv : prevChar = none ↔ tIdx = 0) :
    spec_match_score tIdx prevChar pm score =
      code_match_score tIdx prevChar pm score := by
  cases prevChar with
  | none =>
    have h0 : tIdx = 0 := hinv.mp rfl
    subst h0
    cases pm with
    | none =>
      simp only [spec_match_score, code_match_score]
      simp
      try ring
    | some prev =>
      by_cases hc : (0 == prev + 1) = true
      · simp only [spec_match_score, code_match_score]
        simp [hc]
        try ring
      · simp only [spec_match_score, code_match_score]
        simp [hc]
        try ring
  | some pc =>
    have htne : tIdx ≠ 0 := by
      intro h0
      exact Option.noConfusion (hinv.mpr h0)
    have h0 : (tIdx == 0) = false := beq_eq_false_iff_ne.mpr htne
    by_cases ha : (! pc.isAlphanum) = true
    · cases pm with
      | none =>
        simp only [spec_match_score, code_match_score]
        simp [h0, ha]
        try ring
      | some prev =>
        by_cases hc : (tIdx == prev + 1) = true
        · simp only [spec_match_score, code_match_score]
          simp [h0, ha, hc]
          try ring
        · simp only [spec_match_score, code_match_score]
          simp [h0, ha, hc]
          try ring
    · have ha' : (! pc.isAlphanum) = false := Bool.eq_false_iff.mpr ha
      cases pm with
      | none =>
        simp only [spec_match_score, code_match_score]
        simp [h0, ha']
        try ring
      | some prev =>
        by_cases hc : (tIdx == prev + 1) = true
        · simp only [spec_match_score, code_match_score]
          simp [h0, ha', hc]
          try ring
        · simp only [spec_match_score, code_match_score]
          simp [h0, ha', hc]
          try ring

/-- Helper: the subsequence loops of the code and of the claim agree. -/
theorem fuzzy_subseq_go_spec_eq (qc : List Char) :
    ∀ (t : List Char) (tIdx : Nat) (prevChar : Option Char) (qIdx : Nat)
      (score : ℚ) (pm : Option Nat), (prevChar = none ↔ tIdx = 0) →
      fuzzy_subseq_spec_go qc t tIdx prevChar qIdx score pm =
        fuzzy_subseq_go qc t tIdx prevChar qIdx score pm := by
  intro t
  induction t with
  | nil => intro tIdx prevChar qIdx score pm _; rfl
  | cons c rest ih =>
    intro tIdx prevChar qIdx score pm hinv
    cases hq : qc.get? qIdx with
    | none =>
      simp only [fuzzy_subseq_spec_go, fuzzy_subseq_go, hq]
      exact ih (tIdx + 1) (some c) qIdx score pm (by simp)
    | some q =>
      simp only [fuzzy_subseq_spec_go, fuzzy_subseq_go, hq]
      by_cases hcq : (c == q) = true
      · rw [if_pos hcq, if_pos hcq, match_score_eq tIdx prevChar pm score hinv]
        exact ih (tIdx + 1) (some c) (qIdx + 1) _ (some tIdx) (by simp)
      · rw [if_neg hcq, if_neg hcq]
        exact ih (tIdx + 1) (some c) qIdx score pm (by simp)

/-- Helper: the two subsequence scores agree. -/
theorem fuzzy_subsequence_spec_eq (q t : List Char) :
    fuzzy_subsequence_spec q t = fuzzy_subsequence q t := by
  unfold fuzzy_subsequence_spec fuzzy_subsequence
  rw [fuzzy_subseq_go_spec_eq q t 0 none 0 0 none (by simp)]

/-- Helper: one step of the subsequence loop never decreases the score
below zero. -/
theorem code_match_score_nonneg (tIdx : Nat) (prevChar : Option Char)
    (pm : Option Nat) (score : ℚ) (h : 0 ≤ score) :
    0 ≤ code_match_score tIdx prevChar pm score := by
  unfold code_match_score
  cases prevChar with
  | none =>
    cases pm with
    | none =>
      show (0 : ℚ) ≤ score + 0 + 3/10 + 1/5
      linarith
    | some prev =>
      show (0 : ℚ) ≤ score + (if (tIdx == prev + 1) = true then (1/2 : ℚ) else 0)
        + 3/10 + 1/5
      split_ifs <;> linarith
  | some pc =>
    cases pm with
    | none =>
      show (0 : ℚ) ≤ score + 0
        + (if (! pc.isAlphanum) = true then (3/10 : ℚ) else 0) + 1/5
      split_ifs <;> linarith
    | some prev =>
      show (0 : ℚ) ≤ score + (if (tIdx == prev + 1) = true then (1/2 : ℚ) else 0)
        + (if (! pc.isAlphanum) = true then (3/10 : ℚ) else 0) + 1/5
      split_ifs <;> linarith

/-- Helper: the subsequence loop keeps the score nonnegative. -/
theorem fuzzy_subseq_go_nonneg (qc : List Char) :
    ∀ (t : List Char) (tIdx : Nat) (prevChar : Option Char) (qIdx : Nat)
      (score : ℚ) (pm : Option Nat), 0 ≤ score →
      0 ≤ (fuzzy_subseq_go qc t tIdx prevChar qIdx score pm).1 := by
  intro t
  induction t with
  | nil => intro _ _ _ score _ h; exact h
  | cons c rest ih =>
    intro tIdx prevChar qIdx score pm h
    cases hq : qc.get? qIdx with
    | none =>
      simp only [fuzzy_subseq_go, hq]
      exact ih (tIdx + 1) (some c) qIdx score pm h
    | some q =>
      simp only [fuzzy_subseq_go, hq]
      by_cases hcq : (c == q) = true
      · rw [if_pos hcq]
        exact ih (tIdx + 1) (some c) (qIdx + 1) _ (some tIdx)
          (code_match_score_nonneg tIdx prevChar pm score h)
      · rw [if_neg hcq]
        exact ih (tIdx + 1) (some c) qIdx score pm h

/-- Helper: the subsequence score is nonnegative. -/
theorem fuzzy_subsequence_nonneg (q t : List Char) :
    0 ≤ fuzzy_subsequence q t := by
  unfold fuzzy_subsequence
  cases hr : fuzzy_subseq_go q t 0 none 0 0 none with
  | mk score qIdx =>
    show (0 : ℚ) ≤ if (qIdx == q.length) = true then score else 0
    split_ifs with hif
    · have h := fuzzy_subseq_go_nonneg q t 0 none 0 0 none (le_refl 0)
      rw [hr] at h
      exact h
    · exact le_refl 0

/-- Helper: the claim's fuzzy_match_string is nonnegative. -/
theorem fuzzy_match_string_spec_nonneg (q t : List Char) :
    0 ≤ fuzzy_match_string_spec q t := by
  unfold fuzzy_match_string_spec
  have hd : (0 : ℚ) ≤ (q.length : ℚ) / (t.length : ℚ) :=
    div_nonneg (Nat.cast_nonneg _) (Nat.cast_nonneg _)
  split_ifs with h1 h2 h3
  · norm_num
  · linarith
  · linarith
  · cases hw : (splitBy (fun c => ! c.isAlphanum) t).find?
        (fun w => listStartsWith w q) with
    | some w =>
      have hdw : (0 : ℚ) ≤ (q.length : ℚ) / (w.length : ℚ) :=
        div_nonneg (Nat.cast_nonneg _) (Nat.cast_nonneg _)
      show (0 : ℚ) ≤ 4 + (q.length : ℚ) / (w.length : ℚ)
      linarith
    | none =>
      show (0 : ℚ) ≤ fuzzy_subsequence_spec q t
      rw [fuzzy_subsequence_spec_eq]
      exact fuzzy_subsequence_nonneg q t

/-- Helper: the amended fuzzy_match_string is nonnegative. -/
theorem fuzzy_match_string_amended_nonneg (q t : List Char) :
    0 ≤ fuzzy_match_string_amended q t := by
  unfold fuzzy_match_string_amended
  split_ifs
  · exact le_refl 0
  · exact fuzzy_match_string_spec_nonneg q t

/-- C8 counterexample to the claim as stated: on the empty query against
the entry with label a, the code's fuzzy_score returns 0 (the empty guard
of fuzzy_match_string fires), while the claim's case analysis has no empty
guard, classifies the empty query as a prefix of every nonempty target,
and yields 8.0 (with the frequency boost ln(1+0)*0.1 = 0). -/
theorem fuzzy_score_spec_counterexample :
    fuzzy_score (fun _ => 0) [] fuzzyDemoEntry = 0 ∧
    fuzzy_score_spec (fun _ => 0) [] fuzzyDemoEntry = 8 := by
  have hl : fuzzy_match_string [] (listToLower ("a").data) = 0 := by
    have hg : (List.isEmpty ([] : List Char) ||
        (listToLower ("a").data).isEmpty) = true := by decide
    unfold fuzzy_match_string
    rw [if_pos hg]
  have h8 : fuzzy_match_string_spec [] (listToLower ("a").data) = 8 := by
    have hne : ¬((listToLower ("a").data == ([] : List Char)) = true) := by decide
    have hpre : (listStartsWith (listToLower ("a").data) []) = true := by decide
    unfold fuzzy_match_string_spec
    rw [if_neg hne, if_pos hpre]
    norm_num
  constructor
  · simp only [fuzzy_score, fuzzyDemoEntry]
    rw [hl]
    norm_num
  · simp only [fuzzy_score_spec, fuzzyDemoEntry]
    rw [h8]
    rw [max_eq_left (by norm_num : (8 : ℚ) * (4/5) ≤ 8 * 1)]
    norm_num

/-- C8 (amended): for every query and entry, fuzzy_score of history.rs
equals the claim's formula amended with the code's empty guard — the
maximum over the weighted lowercased candidates label (1.0), path (0.8)
and treeName if present (0.7) of the claim's case-chain fuzzy_match_string
returning 0 when the query or target is empty (10 on equality, 8+|q|/|t|
on prefix, 5+|q|/|t| on containment, 4+|q|/|word| on word prefix, else the
subsequence score with +0.2 per match, +0.3 at word boundaries, +0.5 for
consecutive matches, 0 unless all of the query is consumed), plus
ln(1+visitCount)*0.1, with ln(1+n) abstracted as ln1p. -/
theorem fuzzy_score_matches_amended (ln1p : Nat → ℚ) (query : List Char)
    (e : HistoryEntry) :
    fuzzy_score ln1p query e = fuzzy_score_amended ln1p query e := by
  have hm : ∀ t : List Char,
      fuzzy_match_string query t = fuzzy_match_string_amended query t := by
    intro t
    unfold fuzzy_match_string fuzzy_match_string_amended fuzzy_match_string_spec
    by_cases he : (query.isEmpty || t.isEmpty) = true
    · rw [if_pos he, if_pos he]
    · rw [if_neg he, if_neg he, fuzzy_subsequence_spec_eq]
  simp only [fuzzy_score, fuzzy_score_amended, hm]
  have h1 : (0 : ℚ) ≤
      fuzzy_match_string_amended query (listToLower e.label.data) * 1 :=
    mul_nonneg (fuzzy_match_string_amended_nonneg _ _) (by norm_num)
  simp only [max_eq_right h1]

/-- Witness for C8: the amended equation applied at a concrete entry whose
score comes from the subsequence branch of fuzzy_match_string. -/
theorem fuzzy_score_matches_amended_witness :
    fuzzy_score (fun _ => 0) [ 'h', 't' ] fuzzyDemoEntry2 =
      fuzzy_score_amended (fun _ => 0) [ 'h', 't' ] fuzzyDemoEntry2 :=
  fuzzy_score_matches_amended (fun _ => 0) [ 'h', 't' ] fuzzyDemoEntry2
